import Mathlib

/-!
Verification development for the BUR (backup-and-restore) off-site tool.

The Python source is shallowly embedded: paths and shell text are lists of
characters (`Str`), external effects (the local filesystem, the ssh remote,
the rsync processes, the worker pools) are explicit oracles passed to the
embedded functions, and Python exceptions are `Except` errors.  Every
definition follows the corresponding function of the source tree
(`src/backup/...`); theorems about the upload pipeline, the retention
selection and the utility layers follow at the end of the file.
-/

/-- Character strings of the embedded program; Python `str` values. -/
abbrev Str := List Char

/-- Python whitespace, as recognised by `str.strip()` / `str.split()`. -/
def isPyWs (c : Char) : Bool :=
  c == ' ' || c == '\t' || c == '\n' || c == '\r' || c == '\x0b' || c == '\x0c'

/-- Python `str.strip()`: remove leading and trailing whitespace. -/
def pyStrip (s : Str) : Str :=
  ((s.dropWhile isPyWs).reverse.dropWhile isPyWs).reverse

/-- Auxiliary loop of `wsSplit`; `acc` holds the reversed current token. -/
def wsSplitAux : Str → Str → List Str
  | [], acc => if acc.isEmpty then [] else [acc.reverse]
  | c :: rest, acc =>
    if isPyWs c then
      if acc.isEmpty then wsSplitAux rest [] else acc.reverse :: wsSplitAux rest []
    else wsSplitAux rest (c :: acc)

/-- Python `str.split()` with no argument: split on runs of whitespace. -/
def wsSplit (s : Str) : List Str := wsSplitAux s []

/-- First occurrence of `sep` in `s`: returns the part before and after it. -/
def breakOnFirst (sep : Str) : Str → Option (Str × Str)
  | [] => if sep.isEmpty then some ([], []) else none
  | c :: rest =>
    if sep.isPrefixOf (c :: rest) then some ([], (c :: rest).drop sep.length)
    else
      match breakOnFirst sep rest with
      | some (pre, post) => some (c :: pre, post)
      | none => none

/-- Fuel-driven loop of `pySplitOn`. -/
def splitOnLoop (sep : Str) : Nat → Str → List Str
  | 0, s => [s]
  | fuel + 1, s =>
    match breakOnFirst sep s with
    | none => [s]
    | some (pre, post) => pre :: splitOnLoop sep fuel post

/-- Python `str.split(sep)` for a non-empty separator. -/
def pySplitOn (sep s : Str) : List Str := splitOnLoop sep s.length s

/-- `os.path.basename`: the part after the last slash. -/
def basenameL (p : Str) : Str := (p.reverse.takeWhile (fun c => c ≠ '/')).reverse

/-- Index just after the last slash of `p` (0 when `p` has no slash). -/
def rfindSlashSucc : Str → Nat
  | [] => 0
  | c :: rest =>
    let r := rfindSlashSucc rest
    if r = 0 then (if c = '/' then 1 else 0) else r + 1

/-- Remove trailing slashes (the `rstrip('/')` of `posixpath.dirname`). -/
def dropTrailingSlashes (l : Str) : Str := (l.reverse.dropWhile (fun c => c == '/')).reverse

/-- `os.path.dirname`, following `posixpath.dirname`. -/
def dirnameL (p : Str) : Str :=
  let head := p.take (rfindSlashSucc p)
  if head ≠ [] ∧ head.any (fun c => c ≠ '/') then dropTrailingSlashes head else head

/-- `os.path.join a b` for the cases used by the tool. -/
def joinL (a b : Str) : Str :=
  if b.head? = some '/' then b
  else if a = [] ∨ a.getLast? = some '/' then a ++ b
  else a ++ '/' :: b

/-- `os.path.splitext(p)[0]`, following `posixpath.splitext`: cut at the last
dot of the final component unless the component is all leading dots. -/
def splitextRootL (p : Str) : Str :=
  let sepIdx := rfindSlashSucc p
  let dotIdx := p.length - (p.reverse.takeWhile (fun c => c ≠ '.')).length
  if dotIdx > sepIdx ∧ ((p.drop sepIdx).take (dotIdx - 1 - sepIdx)).any (fun c => c ≠ '.') then
    p.take (dotIdx - 1)
  else p

/-- Lexicographic strict order on strings, as Python compares `str`. -/
def strLt : Str → Str → Bool
  | [], [] => false
  | [], _ :: _ => true
  | _ :: _, [] => false
  | a :: as_, b :: bs =>
    if a < b then true else if b < a then false else strLt as_ bs

/-! ## Constants of `backup/constants.py` -/

def successFlagL : Str := "BACKUP_OK".data
def backupMetaL : Str := "backup.metadata".data
def tarExtL : Str := ".tar".data
def gzGpgExtL : Str := ".gz.gpg".data
def fileListDescL : Str := "bur_file_list_descriptor.dat".data
def volumeListDescL : Str := "bur_volume_list_descriptor.dat".data
def endOfCommandL : Str := "END_OF_COMMAND".data
def dirAvailableL : Str := "DIR_IS_AVAILABLE".data

/-! ## Errors (`backup/exceptions.py`, by exception code) -/

inductive BurError
  | NotEnoughFreeDiskSpace
  | NoVolumeListForBackup
  | NoMetadataForBackup
  | CannotRemoveFile (p : Str)
  | CannotRemovePath (p : Str)
  | WrongTypeError
  | ErrorSortingOffsiteBackupList (chunk : Str)
  | CannotAccessHost
  | GpgError
  | TransferFailed (name : Str)
  | ProcessBackupErrors
  deriving DecidableEq, Repr

inductive RsyncErr
  | NoFilesToSend
  | ExceedTryOuts (retry : Nat)
  | RsyncTransferNumberFilesDiffer (transferred destination origin : Nat)
  | InvalidPath
  deriving DecidableEq, Repr

/-! ## `backup/utils/fsys.py`: `remove_path` and `create_path`

The local filesystem is a predicate `present` on paths together with two
oracles telling whether the underlying OS call (`shutil.rmtree`/`os.remove`,
`os.makedirs`) raises `OSError` for a given path. -/

structure LocalFS where
  present : Str → Bool
  removeOk : Str → Bool
  createOk : Str → Bool

/-- `q` is `p` itself or lies strictly below the directory `p`. -/
def isUnder (p q : Str) : Bool := q == p || (p ++ ['/']).isPrefixOf q

/-- Effect on `present` of a successful recursive removal of `p`. -/
def fsAfterRemove (fs : LocalFS) (p : Str) : LocalFS :=
  { fs with present := fun q => if isUnder p q then false else fs.present q }

/-- Effect on `present` of a successful `os.makedirs p`. -/
def fsAfterCreate (fs : LocalFS) (p : Str) : LocalFS :=
  { fs with present := fun q => if q == p then true else fs.present q }

/-- `fsys.remove_path`: true when the path is already absent or the OS call
succeeds; false when the OS call raises `OSError`. -/
def remove_path (fs : LocalFS) (p : Str) : Bool × LocalFS :=
  if !fs.present p then (true, fs)
  else if fs.removeOk p then (true, fsAfterRemove fs p)
  else (false, fs)

/-- `fsys.create_path`: true when the path already exists or `os.makedirs`
succeeds; false when the OS call raises `OSError`. -/
def create_path (fs : LocalFS) (p : Str) : Bool × LocalFS :=
  if fs.present p then (true, fs)
  else if fs.createOk p then (true, fsAfterCreate fs p)
  else (false, fs)

/-! ## `backup/utils/backup_handler.py`: upload disk-space precondition -/

/-- `check_local_disk_space_for_upload`, after the two measurements
(`get_free_disk_space`, `get_size_on_disk`) have been taken. -/
def check_local_disk_space_for_upload (free_disk_space_onsite_mb bkp_size_mb : Nat) :
    Except BurError Bool :=
  if free_disk_space_onsite_mb ≤ bkp_size_mb then .error .NotEnoughFreeDiskSpace
  else .ok true

/-! ## `backup/utils/remote.py`: ssh guards -/

/-- The remote side of an ssh session: what `Popen(['ssh', ...])` plus
`communicate(command)` would produce for a host and a command. -/
structure RemoteExec where
  exec : Str → Str → Str × Str

/-- `remote.run_ssh_command`: blank host or command short-circuits to a pair
of empty strings without starting a process. -/
def run_ssh_command (env : RemoteExec) (host command : Str) : Str × Str :=
  if (pyStrip host).isEmpty || (pyStrip command).isEmpty then ([], [])
  else env.exec host command

/-- The `bash` test command built by `check_remote_path_exists`. -/
def sshCheckDirCommand (path : Str) : Str :=
  "\n    if [ -d ".data ++ path ++ " ] || [ -f ".data ++ path ++
    " ]; then echo \"DIR_IS_AVAILABLE\"; fi\n\n    ".data

/-- `remote.check_remote_path_exists`. -/
def check_remote_path_exists (env : RemoteExec) (host path : Str) : Bool :=
  if (pyStrip host).isEmpty || (pyStrip path).isEmpty then false
  else
    let out := run_ssh_command env host (sshCheckDirCommand path)
    pyStrip out.1 == dirAvailableL

/-! ## `backup/offsite_backup_handler.py`: descriptor reading -/

/-- Values a pickle file can deserialise to. -/
inductive PyValue
  | str (s : Str)
  | int (n : Int)
  | list (xs : List PyValue)
  | none

/-- `OffsiteBackupHandler.retrieve_remote_pickle_file_content`, after the
rsync fetch: `content` is the deserialised object and `removeOk` tells
whether deleting the staged local copy succeeds. -/
def retrieve_remote_pickle_file_content (content : PyValue) (removeOk : Bool)
    (local_file_path : Str) : Except BurError (List PyValue) :=
  match content with
  | .list xs =>
    if removeOk then .ok xs else .error (.CannotRemoveFile local_file_path)
  | _ => .error .WrongTypeError

/-! ## `backup/rsync_manager.py`: `send` and `receive` -/

/-- `RsyncManager.send`, with the parsed `transferred` count of the i-th
rsync invocation supplied by `attempts`.  `none` in the result is the
`return False` that Python reaches when the loop body never runs. -/
def sendLoop (attempts : Nat → Nat) (retry n_files current_try : Nat) :
    Nat → Except RsyncErr (Option Nat)
  | 0 => .ok none
  | fuel + 1 =>
    let t := attempts current_try
    if t = n_files then .ok (some t)
    else if current_try = retry then .error (.ExceedTryOuts retry)
    else sendLoop attempts retry n_files (current_try + 1) fuel

/-- `RsyncManager.send`: refuse an empty source, then try up to `retry`
times, succeeding as soon as the transferred count matches the local file
count. -/
def send (attempts : Nat → Nat) (retry n_files : Nat) : Except RsyncErr (Option Nat) :=
  if n_files = 0 then .error .NoFilesToSend
  else sendLoop attempts retry n_files 1 retry

/-- External observations made by one `RsyncManager.receive` call. -/
structure ReceiveEnv where
  remotePathExists : Str → Str → Bool
  transferredCount : Nat
  originCount : Nat
  destCount : Nat

/-- `RsyncManager.receive`: split `host:path`, check the remote path, run
rsync once, and fail at once when the transferred count differs from the
origin or destination file count. -/
def receive (env : ReceiveEnv) (source_path : Str) : Except RsyncErr Nat :=
  match pySplitOn [':'] source_path with
  | [host, remote_path] =>
    if !(env.remotePathExists host remote_path) then .error .InvalidPath
    else
      let t := env.transferredCount
      if t ≠ env.originCount ∨ t ≠ env.destCount then
        .error (.RsyncTransferNumberFilesDiffer t env.destCount env.originCount)
      else .ok t
  | _ => .error .InvalidPath

/-! ## `backup/utils/remote.py`: `sort_remote_folders_by_content`

The stdout of the batched
`find F ! -path F -printf "%T+\t%p\n" | sort | head -1; echo END_OF_COMMAND`
command is parsed chunk by chunk; the surviving `(dirname, timestamp)` pairs
are sorted by timestamp, newest first, with Python's stable sort. -/

/-- One parsing step per `END_OF_COMMAND` chunk: blank chunks are skipped,
any other chunk must split into exactly two whitespace-separated tokens. -/
def parseSortChunks : List Str → Except BurError (List (Str × Str))
  | [] => .ok []
  | chunk :: rest =>
    if (pyStrip chunk).isEmpty then parseSortChunks rest
    else
      match wsSplit chunk with
      | [ts, p] =>
        match parseSortChunks rest with
        | .ok entries => .ok ((dirnameL (pyStrip p), pyStrip ts) :: entries)
        | .error e => .error e
      | _ => .error (.ErrorSortingOffsiteBackupList (pyStrip chunk))

/-- Stable insertion used by `sortTsDesc`: an element goes in front of the
first entry whose timestamp is strictly older. -/
def insertTsDesc (e : Str × Str) : List (Str × Str) → List (Str × Str)
  | [] => [e]
  | f :: fs => if strLt f.2 e.2 then e :: f :: fs else f :: insertTsDesc e fs

/-- Python `list.sort(key=timestamp, reverse=True)`: a stable sort placing
newer timestamps first. -/
def sortTsDesc (l : List (Str × Str)) : List (Str × Str) :=
  l.foldl (fun acc e => insertTsDesc e acc) []

/-- `remote.sort_remote_folders_by_content`, given the stdout/stderr that
`run_ssh_command` returned for the batched find command. -/
def sort_remote_folders_by_content (remote_folder_list : List Str) (stdout stderr : Str) :
    Except BurError (List Str) :=
  if remote_folder_list.isEmpty then .ok []
  else if !stderr.isEmpty then .error (.ErrorSortingOffsiteBackupList stderr)
  else
    match parseSortChunks (pySplitOn endOfCommandL stdout) with
    | .error e => .error e
    | .ok file_timestamp_list =>
      if file_timestamp_list.isEmpty then .ok []
      else .ok ((sortTsDesc file_timestamp_list).map (fun e => e.1))

/-- Stdout of `find F ! -path F -printf "%T+\t%p\n" | sort | head -1` for one
folder: one `timestamp TAB path NL` line, or nothing for an empty folder. -/
def findOldestLine : Option (Str × Str) → Str
  | Option.none => []
  | Option.some (ts, p) => ts ++ '\t' :: p ++ ['\n']

/-- Stdout of the whole batched command, one `END_OF_COMMAND` echo after each
per-folder block. -/
def mkFindStdout : List (Option (Str × Str)) → Str
  | [] => []
  | e :: es => findOldestLine e ++ endOfCommandL ++ '\n' :: mkFindStdout es

/-- The chunks `str.split('END_OF_COMMAND')` produces from a well-formed
batched stdout: the first per-folder line, then each further line preceded
by the newline of the previous `echo`, then the final stray newline. -/
def mkChunksTail : List (Option (Str × Str)) → List Str
  | [] => [['\n']]
  | e :: es => ('\n' :: findOldestLine e) :: mkChunksTail es

/-- All chunks of a well-formed batched stdout. -/
def mkChunks : List (Option (Str × Str)) → List Str
  | [] => [[]]
  | e :: es => findOldestLine e :: mkChunksTail es

/-! ## `backup/offsite_backup_handler.py`: retention selection -/

/-- What the retention run observes of the off-site store: per-path content
counts (`get_number_of_content_from_remote_path`) and, for each folder, the
oldest-entry line that `find | sort | head -1` would print. -/
structure OffsiteObs where
  contentCounts : Str → Nat × Nat
  oldest : Str → Option (Str × Str)
  findStderr : List Str → Str

/-- `remote.is_remote_folder_empty`. -/
def is_remote_folder_empty (obs : OffsiteObs) (remote_path : Str) : Bool :=
  let c := obs.contentCounts remote_path
  c.1 + c.2 == 0

/-- stdout observed for the batched find command over `folders`. -/
def obsFindStdout (obs : OffsiteObs) (folders : List Str) : Str :=
  mkFindStdout (folders.map obs.oldest)

/-- `sep` occurs somewhere in `s`. -/
def isInfixOfB (sep s : Str) : Bool := (breakOnFirst sep s).isSome

/-- Timestamp of the oldest file of a folder, as observed. -/
def tsOfOldest (obs : OffsiteObs) (f : Str) : Str :=
  match obs.oldest f with
  | Option.some e => e.1
  | Option.none => []

/-- A parseable oldest-entry line: non-empty whitespace-free timestamp and
path tokens. -/
def tokensOk : Option (Str × Str) → Bool
  | Option.none => true
  | Option.some (ts, p) =>
    !ts.isEmpty && !p.isEmpty && ts.all (fun c => !isPyWs c) && p.all (fun c => !isPyWs c)

/-- A sane oldest-entry observation for folder `f`: non-empty
whitespace-free timestamp and path, a line that does not contain the
`END_OF_COMMAND` marker, and a path lying directly inside `f`. -/
def entryClean (f : Str) : Option (Str × Str) → Bool
  | Option.none => true
  | Option.some (ts, p) =>
    !ts.isEmpty && !p.isEmpty && ts.all (fun c => !isPyWs c) && p.all (fun c => !isPyWs c) &&
      !(isInfixOfB endOfCommandL (ts ++ '\t' :: p ++ ['\n'])) && dirnameL p == f

/-- The retention hypotheses on the observed remote: every non-empty folder
of `dirs` yields an oldest-entry line, and every yielded line is sane. -/
@[reducible] def obsCleanFor (obs : OffsiteObs) (dirs : List Str) : Prop :=
  ∀ f ∈ dirs, (is_remote_folder_empty obs f = false → (obs.oldest f).isSome = true) ∧
    entryClean f (obs.oldest f) = true

/-- `OffsiteBackupHandler.get_backup_dir_list_to_cleanup`: per customer,
drop empty backups, and when more than `offsite_retention` remain queue
everything past the first `offsite_retention` of the newest-first sort. -/
def get_backup_dir_list_to_cleanup (obs : OffsiteObs)
    (dir_list_by_customer : List (Str × List Str)) (offsite_retention : Nat) :
    Except BurError (List Str) :=
  match dir_list_by_customer with
  | [] => .ok []
  | (_, dirs) :: rest => do
    let not_empty_bkp_path_list := dirs.filter (fun p => !(is_remote_folder_empty obs p))
    if not_empty_bkp_path_list.length > offsite_retention then
      let sorted_backup_list ← sort_remote_folders_by_content not_empty_bkp_path_list
        (obsFindStdout obs not_empty_bkp_path_list) (obs.findStderr not_empty_bkp_path_list)
      let restList ← get_backup_dir_list_to_cleanup obs rest offsite_retention
      .ok (sorted_backup_list.drop offsite_retention ++ restList)
    else
      get_backup_dir_list_to_cleanup obs rest offsite_retention

/-! ## `backup/local_backup_handler.py`: the upload state machine

`process_backup` is embedded as a trace-producing function.  The oracles in
`UploadEnv` stand for the measurements and external effects of one run: the
disk-space numbers, the `find *.tar` listing of the remote backup directory,
`os.path.exists` under the temporary directory, the success of each worker
(encode and transfer) by volume name, `check_remote_path_exists` for the
standalone files, the gpg pipeline, `remove_path`, and the rsync transfer of
standalone files keyed by their basename.  `sched` is the completion order
of the transfer pool between its `close` and `join`. -/

structure UploadEnv where
  freeDiskMb : Nat
  backupSizeMb : Nat
  remoteTarNames : List Str
  tmpExists : Str → Bool
  encodeOk : Str → Bool
  transferVolumeOk : Str → Bool
  remoteFileExists : Str → Bool
  gpgOk : Bool
  removeOk : Str → Bool
  transferFileOk : Str → Bool

/-- One remote write performed by an upload run. -/
inductive UploadEvent
  | transferVolume (name : Str) (ok : Bool)
  | transferFile (name : Str)
  | transferDescriptor (name : Str)
  deriving DecidableEq, Repr

def UploadEvent.isVolume : UploadEvent → Bool
  | .transferVolume _ _ => true
  | _ => false

def UploadEvent.isFile : UploadEvent → Bool
  | .transferFile _ => true
  | _ => false

def UploadEvent.isDescriptor : UploadEvent → Bool
  | .transferDescriptor _ => true
  | _ => false

/-- `get_list_processed_vols_names_offsite`: strip the extension from each
name of the remote `find *.tar` listing. -/
def get_list_processed_vols_names_offsite (remoteTarNames : List Str) : List Str :=
  remoteTarNames.map splitextRootL

/-- Outcome of the partition loop of `validate_already_processed_volumes`:
remaining volume paths to encode, volume names handed straight to the
transfer pool, and the temporary directories `remove_path` was called on. -/
structure PartitionResult where
  toProcess : List Str
  direct : List Str
  removedTmp : List Str
  deriving DecidableEq, Repr

/-- The per-volume loop of `validate_already_processed_volumes`. -/
def classifyVolumesLoop (env : UploadEnv) (temp_backup_path : Str) (uploaded : List Str) :
    List Str → PartitionResult
  | [] => ⟨[], [], []⟩
  | vp :: rest =>
    let r := classifyVolumesLoop env temp_backup_path uploaded rest
    let volume_name := basenameL vp
    if volume_name ∈ uploaded then r
    else
      let proc_tar_volume_path := joinL temp_backup_path (volume_name ++ tarExtL)
      if env.tmpExists proc_tar_volume_path then
        { r with direct := volume_name :: r.direct }
      else
        let temp_unfinished_volume_path := joinL temp_backup_path volume_name
        if env.tmpExists temp_unfinished_volume_path then
          { r with toProcess := vp :: r.toProcess,
                   removedTmp := temp_unfinished_volume_path :: r.removedTmp }
        else { r with toProcess := vp :: r.toProcess }

/-- `LocalBackupHandler.validate_already_processed_volumes`. -/
def validate_already_processed_volumes (env : UploadEnv) (temp_backup_path : Str)
    (volume_path_list file_path_list : List Str) : Except BurError PartitionResult :=
  if volume_path_list.isEmpty then .error .NoVolumeListForBackup
  else if file_path_list.isEmpty then .error .NoMetadataForBackup
  else .ok (classifyVolumesLoop env temp_backup_path
    (get_list_processed_vols_names_offsite env.remoteTarNames) volume_path_list)

/-- The four claim-side classes of the upload partition step. -/
inductive VolClass
  | transferred
  | processed
  | unfinished
  | pending
  deriving DecidableEq, Repr

/-- The partition decision as the claim states it, for a volume of name
`name`: already on the remote, already archived in tmp, lingering tmp
directory, or untouched. -/
def claimClassify (env : UploadEnv) (temp_backup_path name : Str) : VolClass :=
  if (name ++ tarExtL) ∈ env.remoteTarNames then .transferred
  else if env.tmpExists (joinL temp_backup_path (name ++ tarExtL)) then .processed
  else if env.tmpExists (joinL temp_backup_path name) then .unfinished
  else .pending

/-- Events of the transfer pool: one rsync per scheduled volume, with its
success given by the oracle. -/
def volumeTransferEvents (env : UploadEnv) (sched : List Str) : List UploadEvent :=
  sched.map (fun n => .transferVolume n (env.transferVolumeOk n))

/-- `check_backup_output_errors` as a predicate: every recorded volume
outcome has status true. -/
def check_backup_output_errors (env : UploadEnv) (part : PartitionResult) : Bool :=
  part.direct.all env.transferVolumeOk &&
  part.toProcess.all (fun vp =>
    env.encodeOk (basenameL vp) && env.transferVolumeOk (basenameL vp))

/-- `LocalBackupHandler.process_backup_metadata_files`: walk the standalone
files; skip those already off-site; transfer `BACKUP_OK` as-is; compress,
encrypt and archive `backup.metadata`; ignore anything else. -/
def process_backup_metadata_files (env : UploadEnv) (remote_backup_path temp_backup_path : Str) :
    List Str → List UploadEvent × Except BurError (List Str)
  | [] => ([], .ok [])
  | file_path :: rest =>
    let file_name := basenameL file_path
    if env.remoteFileExists (joinL remote_backup_path file_name) then
      process_backup_metadata_files env remote_backup_path temp_backup_path rest
    else if file_name = successFlagL then
      if !env.transferFileOk file_name then ([], .error (.TransferFailed file_name))
      else
        let r := process_backup_metadata_files env remote_backup_path temp_backup_path rest
        (.transferFile file_name :: r.1, r.2.map (fun names => file_name :: names))
    else if file_name = backupMetaL then
      if !env.gpgOk then ([], .error .GpgError)
      else
        let processed_file_path := joinL temp_backup_path (file_name ++ gzGpgExtL)
        if !env.removeOk processed_file_path then
          ([], .error (.CannotRemoveFile processed_file_path))
        else
          let archived_name := file_name ++ gzGpgExtL ++ tarExtL
          if !env.transferFileOk archived_name then ([], .error (.TransferFailed archived_name))
          else
            let r := process_backup_metadata_files env remote_backup_path temp_backup_path rest
            (.transferFile archived_name :: r.1, r.2.map (fun names => archived_name :: names))
    else process_backup_metadata_files env remote_backup_path temp_backup_path rest

/-- `LocalBackupHandler.process_bur_descriptors` followed by
`create_transfer_pickle_file`: create the local pickle file, rsync it to
the remote backup directory, remove the local copy. -/
def process_bur_descriptors (env : UploadEnv) (descriptor_name : Str)
    (content_list : List Str) (temp_backup_path remote_backup_path : Str) :
    List UploadEvent × Except BurError Unit :=
  if env.remoteFileExists (joinL remote_backup_path descriptor_name) then ([], .ok ())
  else if !env.transferFileOk descriptor_name then ([], .error (.TransferFailed descriptor_name))
  else if !env.removeOk (joinL temp_backup_path descriptor_name) then
    ([.transferDescriptor descriptor_name],
      .error (.CannotRemoveFile (joinL temp_backup_path descriptor_name)))
  else ([.transferDescriptor descriptor_name], .ok ())

/-- `LocalBackupHandler.process_backup`: disk-space check, partition,
encode/transfer pools (joined before anything else happens), outcome check,
standalone files, then both descriptors.  Returns the ordered remote writes
of the run and the final result. -/
def process_backup (env : UploadEnv) (remote_backup_path temp_backup_path : Str)
    (volume_path_list file_path_list : List Str) (sched : List Str) :
    List UploadEvent × Except BurError (List Str) :=
  match check_local_disk_space_for_upload env.freeDiskMb env.backupSizeMb with
  | .error e => ([], .error e)
  | .ok _ =>
    match validate_already_processed_volumes env temp_backup_path
        volume_path_list file_path_list with
    | .error e => ([], .error e)
    | .ok part =>
      let vEvents := volumeTransferEvents env sched
      if !check_backup_output_errors env part then
        (vEvents, .error .ProcessBackupErrors)
      else
        let m := process_backup_metadata_files env remote_backup_path temp_backup_path
          file_path_list
        match m.2 with
        | .error e => (vEvents ++ m.1, .error e)
        | .ok file_name_list =>
          let d1 := process_bur_descriptors env fileListDescL file_name_list
            temp_backup_path remote_backup_path
          match d1.2 with
          | .error e => (vEvents ++ m.1 ++ d1.1, .error e)
          | .ok _ =>
            let volume_name_list := volume_path_list.map basenameL
            let d2 := process_bur_descriptors env volumeListDescL volume_name_list
              temp_backup_path remote_backup_path
            (vEvents ++ m.1 ++ d1.1 ++ d2.1, d2.2.map (fun _ => file_name_list))

/-- The run enters the metadata-file step: disk space suffices, the
partition did not fail, and every volume outcome has status true. -/
def reaches_metadata_stage (env : UploadEnv) (temp_backup_path : Str)
    (volume_path_list file_path_list : List Str) : Bool :=
  env.backupSizeMb < env.freeDiskMb &&
  !volume_path_list.isEmpty && !file_path_list.isEmpty &&
  check_backup_output_errors env (classifyVolumesLoop env temp_backup_path
    (get_list_processed_vols_names_offsite env.remoteTarNames) volume_path_list)

/-- The `<name>.tar` archives present on the remote after the given remote
writes, starting from the initial listing `r0`. -/
def remoteTarsAfter (r0 : List Str) (evs : List UploadEvent) : List Str :=
  r0 ++ evs.filterMap (fun e =>
    match e with
    | .transferVolume n true => some (n ++ tarExtL)
    | _ => none)

/-- A well-formed entry of the remote `find *.tar` listing: a proper
basename ending in `.tar` whose stem is not made of dots only. -/
def wellFormedTarName (r : Str) : Bool :=
  tarExtL.isSuffixOf r && decide (4 < r.length) && decide ('/' ∉ r) &&
    (r.take (r.length - 4)).any (fun c => c ≠ '.')

/-- Well-formed remote `find *.tar` listing. -/
@[reducible] def WellFormedTarNames (names : List Str) : Prop :=
  ∀ r ∈ names, wellFormedTarName r = true

/-- The retention selection as claimed: per customer, exclude backups whose
remote content count is zero files and zero directories; keep everything
when at most `n` non-empty backups remain; otherwise queue exactly the
entries from position `n` onward of the non-empty backups sorted
newest-first by the timestamp of their oldest contained file. -/
def claimedCleanup (obs : OffsiteObs) (tsOf : Str → Str)
    (dir_list_by_customer : List (Str × List Str)) (n : Nat) : List Str :=
  match dir_list_by_customer with
  | [] => []
  | (_, dirs) :: rest =>
    let notEmpty := dirs.filter (fun p => !(is_remote_folder_empty obs p))
    let here :=
      if notEmpty.length ≤ n then []
      else ((sortTsDesc (notEmpty.map (fun f => (f, tsOf f)))).map (fun e => e.1)).drop n
    here ++ claimedCleanup obs tsOf rest n

/-! ## A concrete upload run, used to instantiate the general theorems -/

/-- A small concrete environment: volume `v0` already off-site, `v1.tar`
waiting in tmp, a leftover `v2` directory in tmp, `v3` untouched; every
worker succeeds and nothing else is on the remote yet. -/
def sampleEnv : UploadEnv where
  freeDiskMb := 10
  backupSizeMb := 1
  remoteTarNames := ["v0.tar".data]
  tmpExists := fun p => p == "/t/v1.tar".data || p == "/t/v2".data
  encodeOk := fun _ => true
  transferVolumeOk := fun _ => true
  remoteFileExists := fun _ => false
  gpgOk := true
  removeOk := fun _ => true
  transferFileOk := fun _ => true

def sampleVols : List Str := ["/b/v0".data, "/b/v1".data, "/b/v2".data, "/b/v3".data]

def sampleFiles : List Str := ["/b/BACKUP_OK".data, "/b/backup.metadata".data]

/-- A small concrete off-site store for the retention theorems: two
non-empty backups with known oldest files, one empty backup. -/
def sampleObs : OffsiteObs where
  contentCounts := fun p => if p == "/A".data || p == "/B".data then (1, 0) else (0, 0)
  oldest := fun p =>
    if p == "/A".data then Option.some ("2018-12-05+10:00".data, "/A/f".data)
    else if p == "/B".data then Option.some ("2018-12-04+10:00".data, "/B/g".data)
    else Option.none
  findStderr := fun _ => []

def sampleCustomers : List (Str × List Str) :=
  [("c0".data, ["/A".data, "/B".data, "/C".data])]

/-! # Theorems -/

/-! ## C5: the upload disk-space precondition -/

/-- C5 (counterexample): with free space exactly equal to the backup size
the check raises `NotEnoughFreeDiskSpace`, although free space is not
strictly less than the backup size. -/
theorem C5_equal_space_raises :
    check_local_disk_space_for_upload 100 100 = .error .NotEnoughFreeDiskSpace ∧
      ¬ (100 : Nat) < 100 := by
  exact ⟨rfl, by decide⟩

/-- C5 (amended): the check raises a disk-space error iff the free space is
less than or equal to the backup size; it succeeds iff the free space
strictly exceeds the backup size. -/
theorem C5_disk_space_check_boundary (free bkp : Nat) :
    (check_local_disk_space_for_upload free bkp = .error .NotEnoughFreeDiskSpace ↔ free ≤ bkp) ∧
      (check_local_disk_space_for_upload free bkp = .ok true ↔ bkp < free) := by
  unfold check_local_disk_space_for_upload
  by_cases h : free ≤ bkp <;> simp [h] <;> omega

/-! ## C7: reading a remote descriptor file -/

/-- C7 (counterexample): a deserialised list whose single element is the
integer 5 — not a string — is accepted, not rejected. -/
theorem C7_nonstring_list_accepted :
    retrieve_remote_pickle_file_content (.list [.int 5]) true [] = .ok [.int 5] ∧
      PyValue.int 5 ≠ PyValue.str [] := by
  constructor
  · rfl
  · intro h
    cases h

/-- C7 (amended): reading a remote descriptor file succeeds iff the
deserialised object is a list (of anything) and the staged copy can be
removed; element types are never inspected. -/
theorem C7_retrieve_checks_only_list (content : PyValue) (removeOk : Bool) (p : Str) :
    (∃ xs, retrieve_remote_pickle_file_content content removeOk p = .ok xs) ↔
      (∃ xs, content = .list xs) ∧ removeOk = true := by
  cases content <;> cases removeOk <;>
    simp [retrieve_remote_pickle_file_content]

/-! ## C8: idempotence of the local filesystem helpers -/

/-- C8: `remove_path` succeeds and changes nothing on an absent path,
`create_path` succeeds and changes nothing on a present path, and each
operation applied twice in a row returns the same result and final state as
applying it once. -/
theorem C8_fsys_helpers_idempotent (fs : LocalFS) (p : Str) :
    (fs.present p = false → remove_path fs p = (true, fs)) ∧
      (fs.present p = true → create_path fs p = (true, fs)) ∧
      remove_path (remove_path fs p).2 p = remove_path fs p ∧
      create_path (create_path fs p).2 p = create_path fs p := by
  refine ⟨fun h => ?_, fun h => ?_, ?_, ?_⟩
  · simp [remove_path, h]
  · simp [create_path, h]
  · by_cases hp : fs.present p
    · by_cases hr : fs.removeOk p
      · have h2 : (fsAfterRemove fs p).present p = false := by
          simp [fsAfterRemove, isUnder]
        simp [remove_path, hp, hr, h2]
      · simp [remove_path, hp, hr]
    · simp [remove_path, hp]
  · by_cases hp : fs.present p
    · simp [create_path, hp]
    · by_cases hc : fs.createOk p
      · have h2 : (fsAfterCreate fs p).present p = true := by
          simp [fsAfterCreate]
        simp [create_path, hp, hc, h2]
      · simp [create_path, hp, hc]

/-- C8 (witness): the theorem applied to a concrete one-file filesystem and
an absent path. -/
theorem C8_fsys_helpers_idempotent_witness :
    remove_path ⟨fun q => q == ['a'], fun _ => true, fun _ => true⟩ ['b'] =
      (true, ⟨fun q => q == ['a'], fun _ => true, fun _ => true⟩) :=
  (C8_fsys_helpers_idempotent ⟨fun q => q == ['a'], fun _ => true, fun _ => true⟩ ['b']).1
    (by decide)

/-! ## C9: blank-input guards of the ssh helpers -/

/-- C9: a blank host or blank command makes `run_ssh_command` return the
pair of empty strings (for every possible remote, hence without running
anything), and `check_remote_path_exists` return false instead of raising. -/
theorem C9_blank_ssh_guards (env : RemoteExec) (host s : Str)
    (hblank : pyStrip host = [] ∨ pyStrip s = []) :
    run_ssh_command env host s = ([], []) ∧ check_remote_path_exists env host s = false := by
  have hb : ((pyStrip host).isEmpty || (pyStrip s).isEmpty) = true := by
    rcases hblank with h | h <;> simp [h]
  constructor
  · simp [run_ssh_command, hb]
  · simp [check_remote_path_exists, hb]

/-- C9 (witness): the theorem applied to a whitespace-only host. -/
theorem C9_blank_ssh_guards_witness :
    run_ssh_command ⟨fun _ _ => (['x'], ['y'])⟩ [' ', '\t'] ['l', 's'] = ([], []) ∧
      check_remote_path_exists ⟨fun _ _ => (['x'], ['y'])⟩ [' ', '\t'] ['l', 's'] = false :=
  C9_blank_ssh_guards ⟨fun _ _ => (['x'], ['y'])⟩ [' ', '\t'] ['l', 's'] (Or.inl (by decide))

/-! ## C6: rsync retry semantics -/

/-- Exhausting the loop with mismatching counts ends in `ExceedTryOuts`. -/
theorem sendLoop_mismatch_exhausts (attempts : Nat → Nat) (retry n_files : Nat) :
    ∀ fuel current_try, current_try + fuel = retry + 1 → 1 ≤ fuel →
      (∀ i, current_try ≤ i → i ≤ retry → attempts i ≠ n_files) →
      sendLoop attempts retry n_files current_try fuel = .error (.ExceedTryOuts retry) := by
  intro fuel
  induction fuel with
  | zero => intro c h h1 _; omega
  | succ f ih =>
    intro c hc _ hmiss
    have hne : attempts c ≠ n_files := hmiss c (Nat.le_refl c) (by omega)
    by_cases hlast : c = retry
    · subst hlast
      simp [sendLoop, hne]
    · have hrec := ih (c + 1) (by omega) (by omega)
        (fun i h1 h2 => hmiss i (by omega) h2)
      simp [sendLoop, hne, hlast, hrec]

/-- The loop succeeds at the first matching attempt. -/
theorem sendLoop_first_match (attempts : Nat → Nat) (retry n_files i : Nat) :
    ∀ fuel current_try, current_try + fuel = retry + 1 →
      current_try ≤ i → i ≤ retry → attempts i = n_files →
      (∀ j, current_try ≤ j → j < i → attempts j ≠ n_files) →
      sendLoop attempts retry n_files current_try fuel = .ok (some n_files) := by
  intro fuel
  induction fuel with
  | zero => intro c h h1 h2 _ _; omega
  | succ f ih =>
    intro c hc hci hir hmatch hbefore
    by_cases hhit : c = i
    · subst hhit
      simp [sendLoop, hmatch]
    · have hne : attempts c ≠ n_files := hbefore c (Nat.le_refl c) (by omega)
      have hcr : c ≠ retry := by omega
      have hrec := ih (c + 1) (by omega) (by omega) hir hmatch
        (fun j h1 h2 => hbefore j (by omega) h2)
      simp [sendLoop, hne, hcr, hrec]

/-- C6 (amended): `send` retries — it succeeds as soon as the parsed
transferred count of some attempt within the budget equals the source file
count, and fails with `ExceedTryOuts` only when every attempt mismatches —
while `receive` performs a single attempt and fails immediately with a
transfer error carrying the three counts on the first mismatch against the
origin or destination count. -/
theorem C6_transfer_retry_semantics :
    (∀ (attempts : Nat → Nat) (retry n_files : Nat), 0 < n_files → 1 ≤ retry →
      (∀ i, 1 ≤ i → i ≤ retry → attempts i ≠ n_files) →
      send attempts retry n_files = .error (.ExceedTryOuts retry)) ∧
    (∀ (attempts : Nat → Nat) (retry n_files i : Nat), 0 < n_files →
      1 ≤ i → i ≤ retry → attempts i = n_files →
      (∀ j, 1 ≤ j → j < i → attempts j ≠ n_files) →
      send attempts retry n_files = .ok (some n_files)) ∧
    (∀ (env : ReceiveEnv) (source host rp : Str),
      pySplitOn [':'] source = [host, rp] → env.remotePathExists host rp = true →
      (env.transferredCount ≠ env.originCount ∨ env.transferredCount ≠ env.destCount →
        receive env source =
          .error (.RsyncTransferNumberFilesDiffer env.transferredCount
            env.destCount env.originCount)) ∧
      (env.transferredCount = env.originCount → env.transferredCount = env.destCount →
        receive env source = .ok env.transferredCount)) := by
  refine ⟨?_, ?_, ?_⟩
  · intro attempts retry n_files hn hr hmiss
    have h0 : n_files ≠ 0 := by omega
    simp only [send, h0, if_false]
    exact sendLoop_mismatch_exhausts attempts retry n_files retry 1 (by omega) hr hmiss
  · intro attempts retry n_files i hn h1 h2 hm hb
    have h0 : n_files ≠ 0 := by omega
    simp only [send, h0, if_false]
    exact sendLoop_first_match attempts retry n_files i retry 1 (by omega) h1 h2 hm hb
  · intro env source host rp hsplit hexists
    constructor
    · intro hmis
      simp [receive, hsplit, hexists, hmis]
    · intro ho hd
      have hcond : ¬(env.transferredCount ≠ env.originCount ∨
          env.transferredCount ≠ env.destCount) := by
        push_neg
        exact ⟨ho, hd⟩
      simp [receive, hsplit, hexists, hcond]

/-- C6 (witness): a concrete run where the first attempt mismatches and the
second matches makes `send` succeed; a receive with matching counts
succeeds. -/
theorem C6_transfer_retry_semantics_witness :
    send (fun i => if i = 1 then 4 else 5) 3 5 = .ok (some 5) ∧
      receive ⟨fun _ _ => true, 5, 5, 5⟩ ('h' :: '@' :: 'x' :: ':' :: '/' :: 'p' :: []) =
        .ok 5 := by
  constructor
  · exact (C6_transfer_retry_semantics.2.1 (fun i => if i = 1 then 4 else 5) 3 5 2
      (by decide) (by decide) (by decide) (by decide) (by intro j h1 h2; interval_cases j <;> decide))
  · exact ((C6_transfer_retry_semantics.2.2 ⟨fun _ _ => true, 5, 5, 5⟩
      ('h' :: '@' :: 'x' :: ':' :: '/' :: 'p' :: []) ('h' :: '@' :: 'x' :: [])
      ('/' :: 'p' :: []) (by decide) rfl).2 rfl rfl)

/-- C6 (counterexample): with the standard budget of three tries, a receive
whose single rsync invocation reports 4 transferred files against 5 at the
origin and 5 at the destination fails at once with the counts — there is no
retry in the receive direction — while a send facing the same first-attempt
mismatch recovers on its second try. -/
theorem C6_receive_does_not_retry :
    receive ⟨fun _ _ => true, 4, 5, 5⟩ ('h' :: '@' :: 'x' :: ':' :: '/' :: 'p' :: []) =
      .error (.RsyncTransferNumberFilesDiffer 4 5 5) ∧
      send (fun i => if i = 1 then 4 else 5) 3 5 = .ok (some 5) := by
  exact ⟨rfl, rfl⟩

/-! ## C2: the upload partition step -/

/-- A string without a slash has no slash position. -/
theorem rfindSlashSucc_eq_zero (p : Str) (h : '/' ∉ p) : rfindSlashSucc p = 0 := by
  induction p with
  | nil => rfl
  | cons c rest ih =>
    rw [List.mem_cons, not_or] at h
    have hr := ih h.2
    have hc : ¬ c = '/' := fun hc => h.1 hc.symm
    simp [rfindSlashSucc, hr, hc]

/-- `takeWhile (≠ '.')` over the reversed `.tar` extension. -/
theorem takeWhile_not_dot_tar (l : Str) :
    (('r' :: 'a' :: 't' :: '.' :: l).takeWhile (fun c => c ≠ '.')) = ['r', 'a', 't'] := rfl

/-- `os.path.splitext` strips exactly the `.tar` extension from a proper
tar basename. -/
theorem splitextRoot_append_tar (b : Str) (hb : b ≠ []) (hs : '/' ∉ b)
    (hd : b.any (fun c => c ≠ '.') = true) : splitextRootL (b ++ tarExtL) = b := by
  have htar : tarExtL = ['.', 't', 'a', 'r'] := by decide
  have hslash : '/' ∉ b ++ tarExtL := by
    rw [htar]
    intro hm
    rcases List.mem_append.mp hm with h | h
    · exact hs h
    · simp at h
  have h0 : rfindSlashSucc (b ++ tarExtL) = 0 := rfindSlashSucc_eq_zero _ hslash
  have hrev : ((b ++ tarExtL).reverse.takeWhile (fun c => c ≠ '.')) = ['r', 'a', 't'] := by
    rw [htar, List.reverse_append]
    exact takeWhile_not_dot_tar b.reverse
  have hlen : (b ++ tarExtL).length = b.length + 4 := by
    rw [htar]
    simp
  have htake : ∀ k, k = b.length → (b ++ tarExtL).take k = b := by
    intro k hk
    rw [hk]
    exact List.take_left b tarExtL
  unfold splitextRootL
  rw [h0, hrev, hlen]
  have harith : b.length + 4 - 3 = b.length + 1 := rfl
  rw [List.length_cons, List.length_cons, List.length_cons, List.length_nil, harith]
  rw [if_pos]
  · exact htake _ rfl
  · constructor
    · omega
    · rw [List.drop_zero, htake (b.length + 1 - 1 - 0) (by omega)]
      exact hd

/-- What a well-formed remote tar name decomposes into. -/
theorem wellFormedTarName_spec (r : Str) (h : wellFormedTarName r = true) :
    ∃ b, r = b ++ tarExtL ∧ splitextRootL r = b := by
  have htar : tarExtL = ['.', 't', 'a', 'r'] := by decide
  unfold wellFormedTarName at h
  simp only [Bool.and_eq_true, decide_eq_true_eq] at h
  obtain ⟨⟨⟨hsuf, hlen⟩, hnos⟩, hany⟩ := h
  obtain ⟨b, hb⟩ : ∃ b, b ++ tarExtL = r := by
    have := List.isSuffixOf_iff_suffix.mp hsuf
    exact this
  have hblen : r.length - 4 = b.length := by
    rw [← hb, htar]
    simp
  have htakeb : r.take (r.length - 4) = b := by
    rw [hblen, ← hb]
    exact List.take_left b tarExtL
  have hbne : b ≠ [] := by
    intro hnil
    rw [← hb, hnil, htar] at hlen
    simp at hlen
  have hbs : '/' ∉ b := by
    intro hm
    exact hnos (hb ▸ List.mem_append.mpr (Or.inl hm))
  have hbany : b.any (fun c => c ≠ '.') = true := by
    rw [← htakeb]
    exact hany
  refine ⟨b, hb.symm, ?_⟩
  rw [← hb]
  exact splitextRoot_append_tar b hbne hbs hbany

/-- Resume key: a volume name is among the stripped remote tar names iff its
`.tar` archive is in the remote listing. -/
theorem mem_uploaded_iff (names : List Str) (hwf : WellFormedTarNames names) (n : Str) :
    n ∈ get_list_processed_vols_names_offsite names ↔ (n ++ tarExtL) ∈ names := by
  unfold get_list_processed_vols_names_offsite
  constructor
  · intro hm
    rcases List.mem_map.mp hm with ⟨r, hr, hroot⟩
    obtain ⟨b, hb, hrootb⟩ := wellFormedTarName_spec r (hwf r hr)
    rw [← hroot, hrootb, ← hb]
    exact hr
  · intro hm
    obtain ⟨b, hb, hrootb⟩ := wellFormedTarName_spec _ (hwf _ hm)
    have hbn : b = n := (List.append_cancel_right hb).symm
    refine List.mem_map.mpr ⟨n ++ tarExtL, hm, ?_⟩
    rw [hrootb, hbn]

/-- The partition loop computes exactly the claim-side classification. -/
theorem classifyVolumesLoop_eq (env : UploadEnv) (temp : Str)
    (hwf : WellFormedTarNames env.remoteTarNames) (vps : List Str) :
    classifyVolumesLoop env temp (get_list_processed_vols_names_offsite env.remoteTarNames) vps =
      ⟨vps.filter (fun vp => claimClassify env temp (basenameL vp) == .unfinished ||
          claimClassify env temp (basenameL vp) == .pending),
        (vps.filter (fun vp => claimClassify env temp (basenameL vp) == .processed)).map basenameL,
        (vps.filter (fun vp => claimClassify env temp (basenameL vp) == .unfinished)).map
          (fun vp => joinL temp (basenameL vp))⟩ := by
  induction vps with
  | nil => rfl
  | cons vp rest ih =>
    have hmem := mem_uploaded_iff env.remoteTarNames hwf (basenameL vp)
    by_cases h1 : (basenameL vp ++ tarExtL) ∈ env.remoteTarNames
    · have hup : basenameL vp ∈ get_list_processed_vols_names_offsite env.remoteTarNames :=
        hmem.mpr h1
      have hcl : claimClassify env temp (basenameL vp) = .transferred := by
        simp [claimClassify, h1]
      simp [classifyVolumesLoop, hup, hcl, ih, List.filter_cons]
    · have hup : basenameL vp ∉ get_list_processed_vols_names_offsite env.remoteTarNames :=
        fun hm => h1 (hmem.mp hm)
      by_cases h2 : env.tmpExists (joinL temp (basenameL vp ++ tarExtL))
      · have hcl : claimClassify env temp (basenameL vp) = .processed := by
          simp [claimClassify, h1, h2]
        simp [classifyVolumesLoop, hup, h2, hcl, ih, List.filter_cons]
      · by_cases h3 : env.tmpExists (joinL temp (basenameL vp))
        · have hcl : claimClassify env temp (basenameL vp) = .unfinished := by
            simp [claimClassify, h1, h2, h3]
          simp [classifyVolumesLoop, hup, h2, h3, hcl, ih, List.filter_cons]
        · have hcl : claimClassify env temp (basenameL vp) = .pending := by
            simp [claimClassify, h1, h2, h3]
          simp [classifyVolumesLoop, hup, h2, h3, hcl, ih, List.filter_cons]

/-- C2: the upload partition classifies every local volume exactly as
claimed — a volume whose `.tar` is already in the remote listing is skipped
entirely; otherwise a `.tar` in tmp sends the volume straight to the
transfer pool with no encoding; otherwise a lingering tmp directory is
removed and the volume is encoded from scratch; otherwise the volume is
simply encoded and transferred. -/
theorem C2_upload_partition (env : UploadEnv) (temp : Str)
    (volume_path_list file_path_list : List Str)
    (hwf : WellFormedTarNames env.remoteTarNames)
    (hvols : volume_path_list ≠ []) (hfiles : file_path_list ≠ []) :
    validate_already_processed_volumes env temp volume_path_list file_path_list =
      .ok ⟨volume_path_list.filter (fun vp =>
            claimClassify env temp (basenameL vp) == .unfinished ||
            claimClassify env temp (basenameL vp) == .pending),
          (volume_path_list.filter (fun vp =>
            claimClassify env temp (basenameL vp) == .processed)).map basenameL,
          (volume_path_list.filter (fun vp =>
            claimClassify env temp (basenameL vp) == .unfinished)).map
              (fun vp => joinL temp (basenameL vp))⟩ := by
  unfold validate_already_processed_volumes
  rw [if_neg (by simp [hvols]), if_neg (by simp [hfiles])]
  rw [classifyVolumesLoop_eq env temp hwf]

/-- C2 (witness): in the concrete sample run, `v0` is skipped, `v1` goes
straight to the transfer pool, `v2` has its leftover tmp directory removed
and is re-encoded, `v3` is encoded. -/
theorem C2_upload_partition_witness :
    validate_already_processed_volumes sampleEnv "/t".data sampleVols sampleFiles =
      .ok ⟨sampleVols.filter (fun vp =>
            claimClassify sampleEnv "/t".data (basenameL vp) == .unfinished ||
            claimClassify sampleEnv "/t".data (basenameL vp) == .pending),
          (sampleVols.filter (fun vp =>
            claimClassify sampleEnv "/t".data (basenameL vp) == .processed)).map basenameL,
          (sampleVols.filter (fun vp =>
            claimClassify sampleEnv "/t".data (basenameL vp) == .unfinished)).map
              (fun vp => joinL "/t".data (basenameL vp))⟩ :=
  C2_upload_partition sampleEnv "/t".data sampleVols sampleFiles (by decide) (by decide) (by decide)

/-! ## C3 and C1: ordering of remote writes in `process_backup` -/

/-- Every transfer-pool event is a volume transfer. -/
theorem volumeTransferEvents_isVolume (env : UploadEnv) (sched : List Str) :
    ∀ e ∈ volumeTransferEvents env sched, e.isVolume = true := by
  intro e he
  rcases List.mem_map.mp he with ⟨n, _, hn⟩
  rw [← hn]
  rfl

/-- Every event of the metadata-file loop is a standalone-file transfer. -/
theorem metadata_events_isFile (env : UploadEnv) (rbp tbp : Str) :
    ∀ files, ∀ e ∈ (process_backup_metadata_files env rbp tbp files).1, e.isFile = true := by
  intro files
  induction files with
  | nil =>
    intro e he
    simp [process_backup_metadata_files] at he
  | cons f rest ih =>
    intro e he
    simp only [process_backup_metadata_files] at he
    split at he
    · exact ih e he
    · split at he
      · split at he
        · simp at he
        · rcases List.mem_cons.mp he with h | h
          · rw [h]
            rfl
          · exact ih e h
      · split at he
        · split at he
          · simp at he
          · split at he
            · simp at he
            · split at he
              · simp at he
              · rcases List.mem_cons.mp he with h | h
                · rw [h]
                  rfl
                · exact ih e h
        · exact ih e he

/-- Every event of the descriptor step is a descriptor transfer. -/
theorem descriptor_events_isDescriptor (env : UploadEnv) (name : Str) (content : List Str)
    (tbp rbp : Str) :
    ∀ e ∈ (process_bur_descriptors env name content tbp rbp).1, e.isDescriptor = true := by
  intro e he
  unfold process_bur_descriptors at he
  by_cases h1 : env.remoteFileExists (joinL rbp name)
  · simp [h1] at he
  · by_cases h2 : env.transferFileOk name
    · by_cases h3 : env.removeOk (joinL tbp name)
      · simp [h1, h2, h3] at he
        rw [he]
        rfl
      · simp [h1, h2, h3] at he
        rw [he]
        rfl
    · simp [h1, h2] at he

/-- C3 (amended): every upload trace decomposes into the volume transfers,
then the standalone-file transfers (`BACKUP_OK` among them), then the
descriptor transfers — so `BACKUP_OK` comes after all volume archives but
the descriptor files are always written after the metadata-file loop, hence
after `BACKUP_OK` whenever `BACKUP_OK` is transferred in that run. -/
theorem C3_marker_order (env : UploadEnv) (rbp tbp : Str) (vols files sched : List Str) :
    ∃ a b c,
      (process_backup env rbp tbp vols files sched).1 = a ++ b ++ c ∧
      (∀ e ∈ a, e.isVolume = true) ∧
      (∀ e ∈ b, e.isFile = true) ∧
      (∀ e ∈ c, e.isDescriptor = true) := by
  cases hdc : check_local_disk_space_for_upload env.freeDiskMb env.backupSizeMb with
  | error err =>
    refine ⟨[], [], [], ?_, ?_, ?_, ?_⟩ <;> simp [process_backup, hdc]
  | ok bres =>
    cases hv : validate_already_processed_volumes env tbp vols files with
    | error err =>
      refine ⟨[], [], [], ?_, ?_, ?_, ?_⟩ <;> simp [process_backup, hdc, hv]
    | ok part =>
      by_cases hchk : check_backup_output_errors env part
      · cases hm : (process_backup_metadata_files env rbp tbp files).2 with
        | error err =>
          refine ⟨volumeTransferEvents env sched,
            (process_backup_metadata_files env rbp tbp files).1, [], ?_,
            volumeTransferEvents_isVolume env sched,
            metadata_events_isFile env rbp tbp files, ?_⟩
          · simp [process_backup, hdc, hv, hchk, hm]
          · simp
        | ok names =>
          cases hd1 : (process_bur_descriptors env fileListDescL names tbp rbp).2 with
          | error err =>
            refine ⟨volumeTransferEvents env sched,
              (process_backup_metadata_files env rbp tbp files).1,
              (process_bur_descriptors env fileListDescL names tbp rbp).1, ?_,
              volumeTransferEvents_isVolume env sched,
              metadata_events_isFile env rbp tbp files,
              descriptor_events_isDescriptor env fileListDescL names tbp rbp⟩
            simp [process_backup, hdc, hv, hchk, hm, hd1]
          | ok u =>
            refine ⟨volumeTransferEvents env sched,
              (process_backup_metadata_files env rbp tbp files).1,
              (process_bur_descriptors env fileListDescL names tbp rbp).1 ++
                (process_bur_descriptors env volumeListDescL (vols.map basenameL) tbp rbp).1,
              ?_, volumeTransferEvents_isVolume env sched,
              metadata_events_isFile env rbp tbp files, ?_⟩
            · simp [process_backup, hdc, hv, hchk, hm, hd1]
            · intro e he
              rcases List.mem_append.mp he with h | h
              · exact descriptor_events_isDescriptor env fileListDescL names tbp rbp e h
              · exact descriptor_events_isDescriptor env volumeListDescL (vols.map basenameL)
                  tbp rbp e h
      · refine ⟨volumeTransferEvents env sched, [], [], ?_,
          volumeTransferEvents_isVolume env sched, ?_, ?_⟩
        · simp [process_backup, hdc, hv, hchk]
        · simp
        · simp

/-- C3 (counterexample): a concrete successful upload in which the write at
index 3 is `BACKUP_OK` and three further files — the archived metadata file
and both descriptors — are written to the remote backup directory after it,
so `BACKUP_OK` is not the last file written. -/
theorem C3_files_written_after_backup_ok :
    ((process_backup sampleEnv "/r".data "/t".data sampleVols sampleFiles
        ["v1".data, "v2".data, "v3".data]).1.get? 3 =
      some (.transferFile successFlagL)) ∧
    ((process_backup sampleEnv "/r".data "/t".data sampleVols sampleFiles
        ["v1".data, "v2".data, "v3".data]).1.drop 4 =
      [.transferFile ("backup.metadata.gz.gpg.tar".data),
       .transferDescriptor fileListDescL,
       .transferDescriptor volumeListDescL]) := by
  exact ⟨rfl, rfl⟩

/-- The claim-side class is `transferred` exactly when the volume archive is
in the remote listing. -/
theorem claimClassify_eq_transferred_iff (env : UploadEnv) (t n : Str) :
    claimClassify env t n = .transferred ↔ (n ++ tarExtL) ∈ env.remoteTarNames := by
  unfold claimClassify
  split_ifs with h1 h2 h3 <;> simp [h1]

/-- Remote tar archives only accumulate as the trace grows. -/
theorem remoteTarsAfter_append_left (r0 : List Str) (evs tail : List UploadEvent) (x : Str)
    (h : x ∈ remoteTarsAfter r0 evs) : x ∈ remoteTarsAfter r0 (evs ++ tail) := by
  unfold remoteTarsAfter at h ⊢
  rcases List.mem_append.mp h with h | h
  · exact List.mem_append.mpr (Or.inl h)
  · refine List.mem_append.mpr (Or.inr ?_)
    rw [List.filterMap_append]
    exact List.mem_append.mpr (Or.inl h)

/-- C1: in a run that reaches the metadata-file step, the trace starts with
the joined transfer-pool events, and every volume of the backup has its
`.tar` archive on the remote already at that point — hence also at the end
of the run, which is why a remotely present `BACKUP_OK` implies all volume
archives are present. -/
theorem C1_volumes_on_remote_before_marker (env : UploadEnv) (rbp tbp : Str)
    (vols files sched : List Str)
    (hwf : WellFormedTarNames env.remoteTarNames)
    (hsched : ∀ v ∈ vols, claimClassify env tbp (basenameL v) ≠ .transferred →
      basenameL v ∈ sched)
    (hreach : reaches_metadata_stage env tbp vols files = true) :
    (∃ tail, (process_backup env rbp tbp vols files sched).1 =
        volumeTransferEvents env sched ++ tail) ∧
    (∀ v ∈ vols, (basenameL v ++ tarExtL) ∈
        remoteTarsAfter env.remoteTarNames (volumeTransferEvents env sched)) ∧
    (∀ v ∈ vols, (basenameL v ++ tarExtL) ∈
        remoteTarsAfter env.remoteTarNames
          (process_backup env rbp tbp vols files sched).1) := by
  unfold reaches_metadata_stage at hreach
  simp only [Bool.and_eq_true, decide_eq_true_eq, Bool.not_eq_true'] at hreach
  obtain ⟨⟨⟨hdisk, hvols⟩, hfiles⟩, hchk0⟩ := hreach
  have hdc : check_local_disk_space_for_upload env.freeDiskMb env.backupSizeMb = .ok true := by
    unfold check_local_disk_space_for_upload
    rw [if_neg (by omega)]
  have hv : validate_already_processed_volumes env tbp vols files =
      .ok (classifyVolumesLoop env tbp
        (get_list_processed_vols_names_offsite env.remoteTarNames) vols) := by
    unfold validate_already_processed_volumes
    rw [if_neg (by simp [hvols]), if_neg (by simp [hfiles])]
  have hchk := hchk0
  rw [classifyVolumesLoop_eq env tbp hwf vols] at hchk
  simp only [check_backup_output_errors, Bool.and_eq_true, List.all_eq_true] at hchk
  obtain ⟨hdirect, hproc⟩ := hchk
  have hmem : ∀ v ∈ vols, (basenameL v ++ tarExtL) ∈
      remoteTarsAfter env.remoteTarNames (volumeTransferEvents env sched) := by
    intro v hvmem
    by_cases htr : claimClassify env tbp (basenameL v) = .transferred
    · have hr0 : (basenameL v ++ tarExtL) ∈ env.remoteTarNames :=
        (claimClassify_eq_transferred_iff env tbp (basenameL v)).mp htr
      exact List.mem_append.mpr (Or.inl hr0)
    · have hnsched := hsched v hvmem htr
      have htrans : env.transferVolumeOk (basenameL v) = true := by
        cases hcl : claimClassify env tbp (basenameL v) with
        | transferred => exact absurd hcl htr
        | processed =>
          apply hdirect
          exact List.mem_map.mpr ⟨v, List.mem_filter.mpr ⟨hvmem, by simp [hcl]⟩, rfl⟩
        | unfinished =>
          exact (hproc v (List.mem_filter.mpr ⟨hvmem, by simp [hcl]⟩)).2
        | pending =>
          exact (hproc v (List.mem_filter.mpr ⟨hvmem, by simp [hcl]⟩)).2
      refine List.mem_append.mpr (Or.inr ?_)
      refine List.mem_filterMap.mpr ⟨.transferVolume (basenameL v) true, ?_, rfl⟩
      refine List.mem_map.mpr ⟨basenameL v, hnsched, ?_⟩
      rw [htrans]
  have hshape : ∃ tail, (process_backup env rbp tbp vols files sched).1 =
      volumeTransferEvents env sched ++ tail := by
    cases hm : (process_backup_metadata_files env rbp tbp files).2 with
    | error err =>
      exact ⟨(process_backup_metadata_files env rbp tbp files).1,
        by simp [process_backup, hdc, hv, hchk0, hm]⟩
    | ok names =>
      cases hd1 : (process_bur_descriptors env fileListDescL names tbp rbp).2 with
      | error err =>
        exact ⟨(process_backup_metadata_files env rbp tbp files).1 ++
          (process_bur_descriptors env fileListDescL names tbp rbp).1,
          by simp [process_backup, hdc, hv, hchk0, hm, hd1]⟩
      | ok u =>
        exact ⟨(process_backup_metadata_files env rbp tbp files).1 ++
          (process_bur_descriptors env fileListDescL names tbp rbp).1 ++
          (process_bur_descriptors env volumeListDescL (vols.map basenameL) tbp rbp).1,
          by simp [process_backup, hdc, hv, hchk0, hm, hd1]⟩
  refine ⟨hshape, hmem, ?_⟩
  intro v hvmem
  obtain ⟨tail, htail⟩ := hshape
  rw [htail]
  exact remoteTarsAfter_append_left _ _ tail _ (hmem v hvmem)

/-- C1 (witness): in the concrete sample run — one volume already off-site,
one pre-archived, two encoded — the archive of the already-off-site volume
`v0` is on the remote by the end of the volume phase. -/
theorem C1_volumes_on_remote_before_marker_witness :
    (basenameL "/b/v0".data ++ tarExtL) ∈
      remoteTarsAfter sampleEnv.remoteTarNames
        (volumeTransferEvents sampleEnv ["v1".data, "v2".data, "v3".data]) :=
  (C1_volumes_on_remote_before_marker sampleEnv "/r".data "/t".data sampleVols sampleFiles
    ["v1".data, "v2".data, "v3".data] (by decide) (by decide) (by decide)).2.1
    "/b/v0".data (by decide)

/-! ## C10 and C4: parsing the batched find output -/

/-- A non-matching element survives `dropWhile`. -/
theorem mem_dropWhile_of_mem (p : Char → Bool) (l : Str) (x : Char)
    (hx : x ∈ l) (hpx : p x = false) : x ∈ l.dropWhile p := by
  induction l with
  | nil => simp at hx
  | cons c rest ih =>
    by_cases hc : p c
    · simp only [List.dropWhile_cons, hc, if_true]
      rcases List.mem_cons.mp hx with rfl | hm
      · rw [hpx] at hc
        simp at hc
      · exact ih hm
    · simp only [List.dropWhile_cons, hc, if_false]
      exact hx

/-- A string with a non-whitespace character does not strip to nothing. -/
theorem pyStrip_ne_nil (s : Str) (hx : ∃ c ∈ s, isPyWs c = false) :
    (pyStrip s).isEmpty = false := by
  obtain ⟨c, hc, hcw⟩ := hx
  have h1 : c ∈ s.dropWhile isPyWs := mem_dropWhile_of_mem _ _ _ hc hcw
  have h2 : c ∈ (s.dropWhile isPyWs).reverse := List.mem_reverse.mpr h1
  have h3 : c ∈ (s.dropWhile isPyWs).reverse.dropWhile isPyWs :=
    mem_dropWhile_of_mem _ _ _ h2 hcw
  have h4 : c ∈ pyStrip s := by
    unfold pyStrip
    exact List.mem_reverse.mpr h3
  cases hrev : pyStrip s with
  | nil => rw [hrev] at h4; simp at h4
  | cons a l => rfl

/-- `dropWhile` keeps a list whose elements all fail the test. -/
theorem dropWhile_eq_self_of_all (p : Char → Bool) (l : Str)
    (h : ∀ c ∈ l, p c = false) : l.dropWhile p = l := by
  cases l with
  | nil => rfl
  | cons c rest => simp [List.dropWhile_cons, h c (List.mem_cons_self c rest)]

/-- Stripping a whitespace-free string is the identity. -/
theorem pyStrip_all_non_ws (s : Str) (h : ∀ c ∈ s, isPyWs c = false) : pyStrip s = s := by
  unfold pyStrip
  rw [dropWhile_eq_self_of_all isPyWs s h]
  rw [dropWhile_eq_self_of_all isPyWs s.reverse (fun c hc => h c (List.mem_reverse.mp hc))]
  exact List.reverse_reverse s

/-- `wsSplitAux` absorbs a whitespace-free token into the accumulator. -/
theorem wsSplitAux_token (tok : Str) (htok : ∀ c ∈ tok, isPyWs c = false) :
    ∀ rest acc, wsSplitAux (tok ++ rest) acc = wsSplitAux rest (tok.reverse ++ acc) := by
  induction tok with
  | nil => intro rest acc; simp
  | cons c t ih =>
    intro rest acc
    have hc : isPyWs c = false := htok c (List.mem_cons_self c t)
    have ht : ∀ x ∈ t, isPyWs x = false := fun x hx => htok x (List.mem_cons_of_mem c hx)
    rw [List.cons_append]
    simp only [wsSplitAux, hc, Bool.false_eq_true, if_false]
    rw [ih ht rest (c :: acc)]
    simp

/-- A whitespace character flushes a non-empty accumulator. -/
theorem wsSplitAux_emit (c : Char) (hc : isPyWs c = true) (rest acc : Str) (hacc : acc ≠ []) :
    wsSplitAux (c :: rest) acc = acc.reverse :: wsSplitAux rest [] := by
  have he : acc.isEmpty = false := by
    cases acc with
    | nil => exact absurd rfl hacc
    | cons a l => rfl
  simp [wsSplitAux, hc, he]

/-- A whitespace character is skipped on an empty accumulator. -/
theorem wsSplitAux_skip (c : Char) (hc : isPyWs c = true) (rest : Str) :
    wsSplitAux (c :: rest) [] = wsSplitAux rest [] := by
  simp [wsSplitAux, hc]

/-- A trailing whitespace character never changes the token list. -/
theorem wsSplitAux_trailing (c : Char) (hc : isPyWs c = true) :
    ∀ s acc, wsSplitAux (s ++ [c]) acc = wsSplitAux s acc := by
  intro s
  induction s with
  | nil =>
    intro acc
    cases acc with
    | nil => simp [wsSplitAux, hc]
    | cons a l => simp [wsSplitAux, hc]
  | cons d t ih =>
    intro acc
    by_cases hd : isPyWs d
    · by_cases hacc : acc = []
      · subst hacc
        rw [List.cons_append, wsSplitAux_skip d hd, wsSplitAux_skip d hd]
        exact ih []
      · rw [List.cons_append, wsSplitAux_emit d hd _ _ hacc, wsSplitAux_emit d hd _ _ hacc,
          ih []]
    · have hd' : isPyWs d = false := by simpa using hd
      rw [List.cons_append]
      simp only [wsSplitAux, hd', Bool.false_eq_true, if_false]
      exact ih (d :: acc)

/-- A whitespace-free non-empty string is a single token. -/
theorem wsSplit_single (p : Str) (hp : p ≠ []) (hpw : ∀ c ∈ p, isPyWs c = false) :
    wsSplit p = [p] := by
  unfold wsSplit
  have h := wsSplitAux_token p hpw [] []
  rw [List.append_nil] at h
  rw [h]
  have he : (p.reverse ++ []).isEmpty = false := by
    cases hp' : p.reverse with
    | nil => exact absurd (by simpa using hp') hp
    | cons a l => rfl
  simp only [wsSplitAux, he, Bool.false_eq_true, if_false]
  simp

/-- Splitting a `timestamp TAB path NL` line: the first token is the
timestamp, the remaining ones are the tokens of the path. -/
theorem wsSplit_line (ts p : Str) (hts : ts ≠ []) (htsw : ∀ c ∈ ts, isPyWs c = false) :
    wsSplit (ts ++ '\t' :: p ++ ['\n']) = ts :: wsSplit p := by
  unfold wsSplit
  rw [List.append_assoc, List.cons_append]
  rw [wsSplitAux_token ts htsw ('\t' :: (p ++ ['\n'])) []]
  rw [List.append_nil]
  have hrts : ts.reverse ≠ [] := by simpa using hts
  rw [wsSplitAux_emit '\t' (by decide) _ _ hrts, List.reverse_reverse]
  rw [wsSplitAux_trailing '\n' (by decide) p []]

/-- The same, for a chunk that starts with the newline of the previous
`echo END_OF_COMMAND`. -/
theorem wsSplit_line_nl (ts p : Str) (hts : ts ≠ []) (htsw : ∀ c ∈ ts, isPyWs c = false) :
    wsSplit ('\n' :: (ts ++ '\t' :: p ++ ['\n'])) = ts :: wsSplit p := by
  have h := wsSplit_line ts p hts htsw
  unfold wsSplit at h ⊢
  rw [wsSplitAux_skip '\n' (by decide)]
  exact h

/-- Soundness of `breakOnFirst`: a hit decomposes the string. -/
theorem breakOnFirst_spec (sep : Str) :
    ∀ s pre post, breakOnFirst sep s = some (pre, post) → s = pre ++ (sep ++ post) := by
  intro s
  induction s with
  | nil =>
    intro pre post h
    simp only [breakOnFirst] at h
    split at h
    · rename_i hsep
      simp only [Option.some.injEq, Prod.mk.injEq] at h
      obtain ⟨h1, h2⟩ := h
      subst h1
      subst h2
      rw [List.isEmpty_iff.mp hsep]
      rfl
    · cases h
  | cons c rest ih =>
    intro pre post h
    simp only [breakOnFirst] at h
    split at h
    · rename_i hpre
      simp only [Option.some.injEq, Prod.mk.injEq] at h
      obtain ⟨h1, h2⟩ := h
      subst h1
      obtain ⟨t, ht⟩ := List.isPrefixOf_iff_prefix.mp hpre
      subst h2
      rw [List.nil_append, ← ht, List.drop_left]
    · rename_i hpre
      cases hb : breakOnFirst sep rest with
      | none => rw [hb] at h; cases h
      | some pq =>
        obtain ⟨p1, q1⟩ := pq
        rw [hb] at h
        simp only [Option.some.injEq, Prod.mk.injEq] at h
        obtain ⟨h1, h2⟩ := h
        rw [← h1, ← h2, ih p1 q1 hb, List.cons_append]

/-- Completeness of `breakOnFirst`: an embedded occurrence is found. -/
theorem breakOnFirst_append_isSome (sep : Str) (hsep : sep ≠ []) :
    ∀ u v, (breakOnFirst sep (u ++ (sep ++ v))).isSome = true := by
  intro u
  induction u with
  | nil =>
    intro v
    rw [List.nil_append]
    cases hs : sep with
    | nil => exact absurd hs hsep
    | cons c0 s' =>
      rw [List.cons_append]
      have hpre : (c0 :: s').isPrefixOf (c0 :: (s' ++ v)) = true := by
        apply List.isPrefixOf_iff_prefix.mpr
        rw [← List.cons_append]
        exact List.prefix_append _ _
      simp [breakOnFirst, hpre]
  | cons c u' ih =>
    intro v
    rw [List.cons_append]
    by_cases hpre : sep.isPrefixOf (c :: (u' ++ (sep ++ v)))
    · simp [breakOnFirst, hpre]
    · have hrec := ih v
      cases hb : breakOnFirst sep (u' ++ (sep ++ v)) with
      | none => rw [hb] at hrec; cases hrec
      | some pq => simp [breakOnFirst, hpre, hb]

/-- The first occurrence in `a ++ sep ++ rest` is at the boundary, provided
no earlier window matches. -/
theorem breakOnFirst_boundary (sep : Str) (hsep : sep ≠ []) :
    ∀ a rest, (∀ a₂, a₂ ≠ [] → a₂ <:+ a → ¬ sep <+: (a₂ ++ (sep ++ rest))) →
      breakOnFirst sep (a ++ (sep ++ rest)) = some (a, rest) := by
  intro a
  induction a with
  | nil =>
    intro rest _
    rw [List.nil_append]
    cases hs : sep with
    | nil => exact absurd hs hsep
    | cons c0 s' =>
      rw [List.cons_append]
      have hpre : (c0 :: s').isPrefixOf (c0 :: (s' ++ rest)) = true := by
        apply List.isPrefixOf_iff_prefix.mpr
        rw [← List.cons_append]
        exact List.prefix_append _ _
      simp only [breakOnFirst, hpre, if_true]
      rw [List.length_cons, List.drop_succ_cons, List.drop_left]
  | cons c a' ih =>
    intro rest hcond
    have hnp : ¬ sep.isPrefixOf (c :: (a' ++ (sep ++ rest))) = true := by
      intro hp
      have := List.isPrefixOf_iff_prefix.mp hp
      rw [← List.cons_append] at this
      exact hcond (c :: a') (by simp) (List.suffix_refl _) this
    rw [List.cons_append]
    have hrec := ih rest (fun a₂ h1 h2 => hcond a₂ h1 (h2.trans (List.suffix_cons c a')))
    simp [breakOnFirst, hnp, hrec]

/-- `splitOnLoop` is insensitive to the exact fuel once it covers the input
length. -/
theorem splitOnLoop_congr (sep : Str) (hsep : sep ≠ []) :
    ∀ n s fuel fuel', s.length ≤ n → s.length ≤ fuel → s.length ≤ fuel' →
      splitOnLoop sep fuel s = splitOnLoop sep fuel' s := by
  have hse : sep.isEmpty = false := by
    cases sep with
    | nil => exact absurd rfl hsep
    | cons c l => rfl
  intro n
  induction n with
  | zero =>
    intro s fuel fuel' hn _ _
    have hs : s = [] := List.eq_nil_of_length_eq_zero (by omega)
    subst hs
    cases fuel <;> cases fuel' <;> simp [splitOnLoop, breakOnFirst, hse]
  | succ n ih =>
    intro s fuel fuel' hn h1 h2
    cases fuel with
    | zero =>
      have hs : s = [] := List.eq_nil_of_length_eq_zero (by omega)
      subst hs
      cases fuel' <;> simp [splitOnLoop, breakOnFirst, hse]
    | succ f =>
      cases fuel' with
      | zero =>
        have hs : s = [] := List.eq_nil_of_length_eq_zero (by omega)
        subst hs
        simp [splitOnLoop, breakOnFirst, hse]
      | succ f' =>
        simp only [splitOnLoop]
        cases hb : breakOnFirst sep s with
        | none => rfl
        | some pq =>
          obtain ⟨pre, post⟩ := pq
          have hspec := breakOnFirst_spec sep s pre post hb
          have hsl : 1 ≤ sep.length := by
            cases sep with
            | nil => exact absurd rfl hsep
            | cons c l => simp
          have hlt : post.length < s.length := by
            rw [hspec]
            simp only [List.length_append]
            omega
          show pre :: splitOnLoop sep f post = pre :: splitOnLoop sep f' post
          rw [ih post f f' (by omega) (by omega) (by omega)]

/-- One splitting step of `str.split(sep)` at a clean boundary. -/
theorem pySplitOn_step (sep : Str) (hsep : sep ≠ []) (a rest : Str)
    (hcond : ∀ a₂, a₂ ≠ [] → a₂ <:+ a → ¬ sep <+: (a₂ ++ (sep ++ rest))) :
    pySplitOn sep (a ++ (sep ++ rest)) = a :: pySplitOn sep rest := by
  unfold pySplitOn
  have hsl : 1 ≤ sep.length := by
    cases sep with
    | nil => exact absurd rfl hsep
    | cons c l => simp
  have hlen : (a ++ (sep ++ rest)).length = a.length + sep.length + rest.length := by
    simp [List.length_append]
    omega
  obtain ⟨L, hL⟩ : ∃ L, (a ++ (sep ++ rest)).length = L + 1 :=
    ⟨(a ++ (sep ++ rest)).length - 1, by omega⟩
  rw [hL]
  simp only [splitOnLoop]
  rw [breakOnFirst_boundary sep hsep a rest hcond]
  show a :: splitOnLoop sep L rest = a :: splitOnLoop sep rest.length rest
  rw [splitOnLoop_congr sep hsep rest.length rest L rest.length (Nat.le_refl _)
    (by omega) (Nat.le_refl _)]

/-- The no-early-window condition follows from the line being
newline-terminated and marker-free when the marker has no newline. -/
theorem boundary_of_clean (sep a rest : Str) (hsep : sep ≠ []) (hNL : '\n' ∉ sep)
    (hlast : a ≠ [] → a.getLast? = some '\n') (hniB : isInfixOfB sep a = false) :
    ∀ a₂, a₂ ≠ [] → a₂ <:+ a → ¬ sep <+: (a₂ ++ (sep ++ rest)) := by
  intro a₂ hne hsuf hp
  by_cases hle : sep.length ≤ a₂.length
  · have h2 : a₂ <+: a₂ ++ (sep ++ rest) := List.prefix_append _ _
    have h1 : sep <+: a₂ := List.prefix_of_prefix_length_le hp h2 hle
    obtain ⟨t, ht⟩ := h1
    obtain ⟨u, hu⟩ := hsuf
    have hsome : (breakOnFirst sep a).isSome = true := by
      have := breakOnFirst_append_isSome sep hsep u (t ++ [])
      rw [List.append_nil] at this
      have ha : a = u ++ (sep ++ t) := by rw [← hu, ← ht]
      rw [← ha] at this
      exact this
    unfold isInfixOfB at hniB
    rw [hniB] at hsome
    cases hsome
  · have h3 : a₂ <+: a₂ ++ (sep ++ rest) := List.prefix_append _ _
    have h2 : a₂ <+: sep := List.prefix_of_prefix_length_le h3 hp (by omega)
    have hane : a ≠ [] := by
      obtain ⟨u, hu⟩ := hsuf
      intro h0
      rw [h0] at hu
      have := List.append_eq_nil.mp hu
      exact hne this.2
    have h5 : a₂.getLast? = some '\n' := by
      obtain ⟨u, hu⟩ := hsuf
      have h6 := hlast hane
      rw [← hu] at h6
      rw [List.getLast?_append_of_ne_nil u hne] at h6
      exact h6
    have h4 : '\n' ∈ a₂ := by
      have h7 : a₂.getLast hne ∈ a₂ := List.getLast_mem hne
      rw [List.getLast?_eq_getLast a₂ hne] at h5
      simp only [Option.some.injEq] at h5
      rw [← h5]
      exact h7
    exact hNL (h2.subset h4)

/-- A per-folder line is newline-terminated. -/
theorem findOldestLine_getLast (e : Option (Str × Str)) (h : findOldestLine e ≠ []) :
    (findOldestLine e).getLast? = some '\n' := by
  cases e with
  | none => exact absurd rfl h
  | some q =>
    obtain ⟨ts, p⟩ := q
    exact List.getLast?_concat _

/-- The same after prepending the newline of the previous echo. -/
theorem nl_line_getLast (e : Option (Str × Str)) :
    ('\n' :: findOldestLine e).getLast? = some '\n' := by
  cases e with
  | none => rfl
  | some q =>
    obtain ⟨ts, p⟩ := q
    show ('\n' :: (ts ++ '\t' :: p ++ ['\n'])).getLast? = some '\n'
    rw [← List.cons_append]
    exact List.getLast?_concat _

/-- The marker stays absent after prepending a newline. -/
theorem isInfixOfB_cons_nl (L : Str) (h : isInfixOfB endOfCommandL L = false) :
    isInfixOfB endOfCommandL ('\n' :: L) = false := by
  have hE : endOfCommandL = 'E' :: "ND_OF_COMMAND".data := by decide
  have hnone : breakOnFirst endOfCommandL L = none := by
    cases hb : breakOnFirst endOfCommandL L with
    | none => rfl
    | some pq =>
      unfold isInfixOfB at h
      rw [hb] at h
      cases h
  have hpre : ¬ endOfCommandL.isPrefixOf ('\n' :: L) = true := by
    rw [List.isPrefixOf_iff_prefix]
    intro hp
    rw [hE] at hp
    have h1 := (List.cons_prefix_cons.mp hp).1
    exact absurd h1 (by decide)
  unfold isInfixOfB
  simp [breakOnFirst, hpre, hnone]

/-- `str.split('END_OF_COMMAND')` over the tail of a well-formed stdout. -/
theorem pySplitOn_tail_chunks (es : List (Option (Str × Str)))
    (hclean : ∀ e ∈ es, isInfixOfB endOfCommandL (findOldestLine e) = false) :
    pySplitOn endOfCommandL ('\n' :: mkFindStdout es) = mkChunksTail es := by
  induction es with
  | nil => rfl
  | cons e es' ih =>
    have hshape : ('\n' :: mkFindStdout (e :: es')) =
        ('\n' :: findOldestLine e) ++ (endOfCommandL ++ ('\n' :: mkFindStdout es')) := by
      simp [mkFindStdout, List.cons_append, List.append_assoc]
    rw [hshape]
    rw [pySplitOn_step endOfCommandL (by decide) ('\n' :: findOldestLine e)
      ('\n' :: mkFindStdout es')
      (boundary_of_clean endOfCommandL ('\n' :: findOldestLine e) ('\n' :: mkFindStdout es')
        (by decide) (by decide) (fun _ => nl_line_getLast e)
        (isInfixOfB_cons_nl (findOldestLine e) (hclean e (List.mem_cons_self e es'))))]
    rw [ih (fun x hx => hclean x (List.mem_cons_of_mem e hx))]
    rfl

/-- `str.split('END_OF_COMMAND')` over a well-formed batched stdout. -/
theorem pySplitOn_chunks (es : List (Option (Str × Str)))
    (hclean : ∀ e ∈ es, isInfixOfB endOfCommandL (findOldestLine e) = false) :
    pySplitOn endOfCommandL (mkFindStdout es) = mkChunks es := by
  cases es with
  | nil => rfl
  | cons e es' =>
    have hshape : mkFindStdout (e :: es') =
        findOldestLine e ++ (endOfCommandL ++ ('\n' :: mkFindStdout es')) := by
      simp [mkFindStdout, List.append_assoc]
    rw [hshape]
    rw [pySplitOn_step endOfCommandL (by decide) (findOldestLine e) ('\n' :: mkFindStdout es')
      (boundary_of_clean endOfCommandL (findOldestLine e) ('\n' :: mkFindStdout es')
        (by decide) (by decide) (findOldestLine_getLast e)
        (hclean e (List.mem_cons_self e es')))]
    rw [pySplitOn_tail_chunks es' (fun x hx => hclean x (List.mem_cons_of_mem e hx))]
    rfl

/-- Unpacking `tokensOk` for a present entry. -/
theorem tokensOk_some (ts p : Str) (h : tokensOk (Option.some (ts, p)) = true) :
    ts ≠ [] ∧ p ≠ [] ∧ (∀ c ∈ ts, isPyWs c = false) ∧ (∀ c ∈ p, isPyWs c = false) := by
  simp only [tokensOk, Bool.and_eq_true, List.all_eq_true, Bool.not_eq_true',
    List.isEmpty_eq_false_iff_exists_mem] at h
  obtain ⟨⟨⟨hts, hp⟩, htsw⟩, hpw⟩ := h
  refine ⟨?_, ?_, htsw, hpw⟩
  · obtain ⟨c, hc⟩ := hts
    intro h0
    rw [h0] at hc
    simp at hc
  · obtain ⟨c, hc⟩ := hp
    intro h0
    rw [h0] at hc
    simp at hc

/-- Parsing the tail chunks of a well-formed stdout recovers one
`(dirname, timestamp)` entry per present oldest line. -/
theorem parseSortChunks_chunksTail (es : List (Option (Str × Str)))
    (h : ∀ e ∈ es, tokensOk e = true) :
    parseSortChunks (mkChunksTail es) =
      .ok (es.filterMap (fun e => e.map (fun q => (dirnameL q.2, q.1)))) := by
  induction es with
  | nil => rfl
  | cons e es' ih =>
    have hrest := ih (fun x hx => h x (List.mem_cons_of_mem e hx))
    cases e with
    | none =>
      show parseSortChunks (('\n' :: findOldestLine Option.none) :: mkChunksTail es') = _
      have hblank : (pyStrip ('\n' :: findOldestLine Option.none)).isEmpty = true := rfl
      simp only [parseSortChunks, hblank, if_true]
      rw [hrest]
      simp [List.filterMap_cons]
    | some q =>
      obtain ⟨ts, p⟩ := q
      obtain ⟨hts, hp, htsw, hpw⟩ := tokensOk_some ts p (h _ (List.mem_cons_self _ _))
      have hblank : (pyStrip ('\n' :: (ts ++ '\t' :: p ++ ['\n']))).isEmpty = false := by
        apply pyStrip_ne_nil
        obtain ⟨c, hc⟩ := List.exists_mem_of_ne_nil ts hts
        refine ⟨c, ?_, htsw c hc⟩
        exact List.mem_cons_of_mem _ (List.mem_append_left _ (List.mem_append_left _ hc))
      have htoks := wsSplit_line_nl ts p hts htsw
      have hsingle := wsSplit_single p hp hpw
      show parseSortChunks (('\n' :: (ts ++ '\t' :: p ++ ['\n'])) :: mkChunksTail es') = _
      simp only [parseSortChunks, hblank, Bool.false_eq_true, if_false, htoks, hsingle]
      rw [hrest]
      simp only [List.filterMap_cons, Option.map]
      rw [pyStrip_all_non_ws ts htsw, pyStrip_all_non_ws p hpw]

/-- Parsing all chunks of a well-formed stdout. -/
theorem parseSortChunks_chunks (es : List (Option (Str × Str)))
    (h : ∀ e ∈ es, tokensOk e = true) :
    parseSortChunks (mkChunks es) =
      .ok (es.filterMap (fun e => e.map (fun q => (dirnameL q.2, q.1)))) := by
  cases es with
  | nil => rfl
  | cons e es' =>
    have hrest := parseSortChunks_chunksTail es' (fun x hx => h x (List.mem_cons_of_mem e hx))
    cases e with
    | none =>
      show parseSortChunks (findOldestLine Option.none :: mkChunksTail es') = _
      have hblank : (pyStrip (findOldestLine Option.none)).isEmpty = true := rfl
      simp only [parseSortChunks, hblank, if_true]
      rw [hrest]
      simp [List.filterMap_cons]
    | some q =>
      obtain ⟨ts, p⟩ := q
      obtain ⟨hts, hp, htsw, hpw⟩ := tokensOk_some ts p (h _ (List.mem_cons_self _ _))
      have hblank : (pyStrip (ts ++ '\t' :: p ++ ['\n'])).isEmpty = false := by
        apply pyStrip_ne_nil
        obtain ⟨c, hc⟩ := List.exists_mem_of_ne_nil ts hts
        refine ⟨c, ?_, htsw c hc⟩
        exact List.mem_append_left _ (List.mem_append_left _ hc)
      have htoks := wsSplit_line ts p hts htsw
      have hsingle := wsSplit_single p hp hpw
      show parseSortChunks ((ts ++ '\t' :: p ++ ['\n']) :: mkChunksTail es') = _
      simp only [parseSortChunks, hblank, Bool.false_eq_true, if_false, htoks, hsingle]
      rw [hrest]
      simp only [List.filterMap_cons, Option.map]
      rw [pyStrip_all_non_ws ts htsw, pyStrip_all_non_ws p hpw]

/-- Chunks an `ok` parse went through are blank or two-token. -/
theorem parseSortChunks_ok_two_tokens :
    ∀ chunks entries, parseSortChunks chunks = .ok entries →
      ∀ chunk ∈ chunks, pyStrip chunk = [] ∨ (wsSplit chunk).length = 2 := by
  intro chunks
  induction chunks with
  | nil =>
    intro entries _ chunk hc
    simp at hc
  | cons c rest ih =>
    intro entries hok chunk hc
    rcases List.mem_cons.mp hc with rfl | hmem
    · by_cases hblank : (pyStrip chunk).isEmpty
      · left
        exact List.isEmpty_iff.mp hblank
      · right
        have hb : (pyStrip chunk).isEmpty = false := by simpa using hblank
        simp only [parseSortChunks, hb, Bool.false_eq_true, if_false] at hok
        cases hw : wsSplit chunk with
        | nil => rw [hw] at hok; simp at hok
        | cons t1 rest1 =>
          cases rest1 with
          | nil => rw [hw] at hok; simp at hok
          | cons t2 rest2 =>
            cases rest2 with
            | nil => rfl
            | cons t3 rest3 => rw [hw] at hok; simp at hok
    · by_cases hblank : (pyStrip c).isEmpty
      · simp only [parseSortChunks, hblank, if_true] at hok
        exact ih entries hok chunk hmem
      · have hb : (pyStrip c).isEmpty = false := by simpa using hblank
        simp only [parseSortChunks, hb, Bool.false_eq_true, if_false] at hok
        cases hw : wsSplit c with
        | nil => rw [hw] at hok; simp at hok
        | cons t1 rest1 =>
          cases rest1 with
          | nil => rw [hw] at hok; simp at hok
          | cons t2 rest2 =>
            cases rest2 with
            | nil =>
              rw [hw] at hok
              cases hr : parseSortChunks rest with
              | ok es2 => exact ih es2 hr chunk hmem
              | error e2 => rw [hr] at hok; simp at hok
            | cons t3 rest3 => rw [hw] at hok; simp at hok

/-- A bad chunk forces the whole parse to raise. -/
theorem parseSortChunks_error_of_bad (chunks : List Str)
    (hbad : ∃ chunk ∈ chunks, pyStrip chunk ≠ [] ∧ (wsSplit chunk).length ≠ 2) :
    ∃ err, parseSortChunks chunks = .error err := by
  cases hres : parseSortChunks chunks with
  | ok entries =>
    obtain ⟨chunk, hc, h1, h2⟩ := hbad
    rcases parseSortChunks_ok_two_tokens chunks entries hres chunk hc with h | h
    · exact absurd h h1
    · exact absurd h h2
  | error e => exact ⟨e, rfl⟩

/-- A bad chunk forces `sort_remote_folders_by_content` to raise. -/
theorem sort_error_of_bad_chunk (folders : List Str) (stdout : Str) (hf : folders ≠ [])
    (hbad : ∃ chunk ∈ pySplitOn endOfCommandL stdout,
      pyStrip chunk ≠ [] ∧ (wsSplit chunk).length ≠ 2) :
    ∃ err, sort_remote_folders_by_content folders stdout [] = .error err := by
  obtain ⟨err, herr⟩ := parseSortChunks_error_of_bad _ hbad
  refine ⟨err, ?_⟩
  unfold sort_remote_folders_by_content
  rw [if_neg (by simp [hf]), if_neg (by simp)]
  rw [herr]

/-- The chunk of an entry of the batch is among the split chunks. -/
theorem chunk_mem_mkChunksTail (es : List (Option (Str × Str))) (e : Option (Str × Str))
    (he : e ∈ es) : ('\n' :: findOldestLine e) ∈ mkChunksTail es := by
  induction es with
  | nil => simp at he
  | cons e0 es' ih =>
    rcases List.mem_cons.mp he with rfl | hm
    · exact List.mem_cons_self _ _
    · exact List.mem_cons_of_mem _ (ih hm)

/-- Every entry contributes its line (bare or newline-prefixed) as a chunk. -/
theorem chunk_mem_mkChunks (es : List (Option (Str × Str))) (e : Option (Str × Str))
    (he : e ∈ es) :
    findOldestLine e ∈ mkChunks es ∨ ('\n' :: findOldestLine e) ∈ mkChunks es := by
  cases es with
  | nil => simp at he
  | cons e0 es' =>
    rcases List.mem_cons.mp he with rfl | hm
    · left
      exact List.mem_cons_self _ _
    · right
      exact List.mem_cons_of_mem _ (chunk_mem_mkChunksTail es' e hm)

/-- C10 (amended): any non-blank per-folder chunk that does not split into
exactly two whitespace-separated tokens makes the retention sort raise a
sorting error; consequently a remote directory whose oldest file's path
itself splits into two or more tokens — internal whitespace — makes the
sort fail.  (A path with only trailing whitespace still parses, see the
counterexample.) -/
theorem C10_sort_whitespace_failure :
    (∀ (folders : List Str) (stdout : Str), folders ≠ [] →
      (∃ chunk ∈ pySplitOn endOfCommandL stdout,
        pyStrip chunk ≠ [] ∧ (wsSplit chunk).length ≠ 2) →
      ∃ err, sort_remote_folders_by_content folders stdout [] = .error err) ∧
    (∀ (folders : List Str) (oldestF : Str → Option (Str × Str)) (f ts p : Str),
      folders ≠ [] →
      (∀ g ∈ folders, isInfixOfB endOfCommandL (findOldestLine (oldestF g)) = false) →
      f ∈ folders → oldestF f = Option.some (ts, p) →
      ts ≠ [] → (∀ c ∈ ts, isPyWs c = false) →
      2 ≤ (wsSplit p).length →
      ∃ err, sort_remote_folders_by_content folders
        (mkFindStdout (folders.map oldestF)) [] = .error err) := by
  constructor
  · exact fun folders stdout hf hbad => sort_error_of_bad_chunk folders stdout hf hbad
  · intro folders oldestF f ts p hf hclean hmem hsome hts htsw htok
    apply sort_error_of_bad_chunk folders _ hf
    have hmap : ∀ e ∈ folders.map oldestF,
        isInfixOfB endOfCommandL (findOldestLine e) = false := by
      intro e he
      rcases List.mem_map.mp he with ⟨g, hg, rfl⟩
      exact hclean g hg
    rw [pySplitOn_chunks (folders.map oldestF) hmap]
    have hentry : oldestF f ∈ folders.map oldestF := List.mem_map_of_mem oldestF hmem
    rw [hsome] at hentry
    have hstrip : pyStrip (findOldestLine (Option.some (ts, p))) ≠ [] := by
      have h1 : (pyStrip (findOldestLine (Option.some (ts, p)))).isEmpty = false := by
        apply pyStrip_ne_nil
        obtain ⟨c, hc⟩ := List.exists_mem_of_ne_nil ts hts
        exact ⟨c, List.mem_append_left _ (List.mem_append_left _ hc), htsw c hc⟩
      intro h0
      rw [h0] at h1
      cases h1
    have hstrip2 : pyStrip ('\n' :: findOldestLine (Option.some (ts, p))) ≠ [] := by
      have h1 : (pyStrip ('\n' :: findOldestLine (Option.some (ts, p)))).isEmpty = false := by
        apply pyStrip_ne_nil
        obtain ⟨c, hc⟩ := List.exists_mem_of_ne_nil ts hts
        exact ⟨c, List.mem_cons_of_mem _
          (List.mem_append_left _ (List.mem_append_left _ hc)), htsw c hc⟩
      intro h0
      rw [h0] at h1
      cases h1
    have hlen1 : (wsSplit (findOldestLine (Option.some (ts, p)))).length ≠ 2 := by
      show (wsSplit (ts ++ '\t' :: p ++ ['\n'])).length ≠ 2
      rw [wsSplit_line ts p hts htsw]
      simp only [List.length_cons]
      omega
    have hlen2 : (wsSplit ('\n' :: findOldestLine (Option.some (ts, p)))).length ≠ 2 := by
      show (wsSplit ('\n' :: (ts ++ '\t' :: p ++ ['\n']))).length ≠ 2
      rw [wsSplit_line_nl ts p hts htsw]
      simp only [List.length_cons]
      omega
    rcases chunk_mem_mkChunks (folders.map oldestF) (Option.some (ts, p)) hentry with h | h
    · exact ⟨findOldestLine (Option.some (ts, p)), h, hstrip, hlen1⟩
    · exact ⟨'\n' :: findOldestLine (Option.some (ts, p)), h, hstrip2, hlen2⟩

/-- C10 (witness): a one-token chunk makes the sort raise. -/
theorem C10_sort_whitespace_failure_witness :
    ∃ err, sort_remote_folders_by_content ["/b".data] ['x'] [] = .error err :=
  C10_sort_whitespace_failure.1 ["/b".data] ['x'] (by decide)
    ⟨['x'], by decide, by decide, by decide⟩

/-- C10 (counterexample): an oldest file whose path contains whitespace only
at its end — here `/b/f␣` — is accepted by the retention sort (Python's
`split()` drops trailing whitespace), so the sort does not fail for every
whitespace-containing path. -/
theorem C10_trailing_whitespace_accepted :
    (' ' ∈ "/b/f ".data) ∧
      sort_remote_folders_by_content ["/b".data]
        (mkFindStdout [Option.some ("2018-12-04+10:00".data, "/b/f ".data)]) [] =
        .ok ["/b".data] := by
  exact ⟨by decide, rfl⟩

/-- A clean entry parses into sane tokens. -/
theorem entryClean_tokensOk (f : Str) (e : Option (Str × Str))
    (h : entryClean f e = true) : tokensOk e = true := by
  cases e with
  | none => rfl
  | some q =>
    obtain ⟨ts, p⟩ := q
    simp only [entryClean, Bool.and_eq_true] at h
    simp only [tokensOk, Bool.and_eq_true]
    exact ⟨⟨⟨h.1.1.1.1.1, h.1.1.1.1.2⟩, h.1.1.1.2⟩, h.1.1.2⟩

/-- A clean entry's line is free of the `END_OF_COMMAND` marker. -/
theorem entryClean_infixFree (f : Str) (e : Option (Str × Str))
    (h : entryClean f e = true) :
    isInfixOfB endOfCommandL (findOldestLine e) = false := by
  cases e with
  | none => rfl
  | some q =>
    obtain ⟨ts, p⟩ := q
    simp only [entryClean, Bool.and_eq_true, Bool.not_eq_true'] at h
    exact h.1.2

/-- A clean entry's path points directly inside its folder. -/
theorem entryClean_dirname (f : Str) (ts p : Str)
    (h : entryClean f (Option.some (ts, p)) = true) : dirnameL p = f := by
  simp only [entryClean, Bool.and_eq_true, beq_iff_eq] at h
  exact h.2

/-- The parsed entries of a clean observation are exactly one
`(folder, timestamp)` pair per non-empty folder. -/
theorem filterMap_oldest_eq_map (obs : OffsiteObs) (ne : List Str)
    (h : ∀ f ∈ ne, (obs.oldest f).isSome = true ∧ entryClean f (obs.oldest f) = true) :
    (ne.map obs.oldest).filterMap (fun e => e.map (fun q => (dirnameL q.2, q.1))) =
      ne.map (fun f => (f, tsOfOldest obs f)) := by
  induction ne with
  | nil => rfl
  | cons f rest ih =>
    have hf := h f (List.mem_cons_self f rest)
    cases ho : obs.oldest f with
    | none =>
      have h1 := hf.1
      rw [ho] at h1
      cases h1
    | some q =>
      obtain ⟨ts, p⟩ := q
      have hdir : dirnameL p = f := by
        have h2 := hf.2
        rw [ho] at h2
        exact entryClean_dirname f ts p h2
      simp only [List.map_cons, List.filterMap_cons, ho, Option.map_some']
      rw [ih (fun g hg => h g (List.mem_cons_of_mem f hg))]
      simp [hdir, tsOfOldest, ho]

/-- For a clean observation, the retention sort returns the non-empty
folders sorted newest-first by oldest-file timestamp. -/
theorem sort_remote_folders_ok (obs : OffsiteObs) (ne : List Str) (hne : ne ≠ [])
    (hstd : obs.findStderr ne = [])
    (hall : ∀ f ∈ ne, (obs.oldest f).isSome = true ∧ entryClean f (obs.oldest f) = true) :
    sort_remote_folders_by_content ne (obsFindStdout obs ne) (obs.findStderr ne) =
      .ok ((sortTsDesc (ne.map (fun f => (f, tsOfOldest obs f)))).map (fun e => e.1)) := by
  unfold sort_remote_folders_by_content
  rw [if_neg (by simp [hne]), hstd, if_neg (by simp)]
  have hclean : ∀ e ∈ ne.map obs.oldest,
      isInfixOfB endOfCommandL (findOldestLine e) = false := by
    intro e he
    rcases List.mem_map.mp he with ⟨f, hf, rfl⟩
    exact entryClean_infixFree f _ (hall f hf).2
  have htok : ∀ e ∈ ne.map obs.oldest, tokensOk e = true := by
    intro e he
    rcases List.mem_map.mp he with ⟨f, hf, rfl⟩
    exact entryClean_tokensOk f _ (hall f hf).2
  unfold obsFindStdout
  rw [pySplitOn_chunks _ hclean, parseSortChunks_chunks _ htok,
    filterMap_oldest_eq_map obs ne hall]
  have hnee : (ne.map (fun f => (f, tsOfOldest obs f))).isEmpty = false := by
    cases ne with
    | nil => exact absurd rfl hne
    | cons a l => rfl
  simp [hnee]

/-- C4: per customer, the retention selection excludes backups with zero
files and zero directories; when at most `N` non-empty backups remain
nothing is queued; otherwise exactly the entries from position `N` onward
of the non-empty backups sorted newest-first by oldest-contained-file
timestamp are queued. -/
theorem C4_retention_selection (obs : OffsiteObs) (customers : List (Str × List Str)) (N : Nat)
    (hclean : ∀ cu ∈ customers, obsCleanFor obs cu.2)
    (hstderr : ∀ cu ∈ customers,
      obs.findStderr (cu.2.filter (fun p => !(is_remote_folder_empty obs p))) = []) :
    get_backup_dir_list_to_cleanup obs customers N =
      .ok (claimedCleanup obs (tsOfOldest obs) customers N) := by
  induction customers with
  | nil => rfl
  | cons cu rest ih =>
    obtain ⟨cname, dirs⟩ := cu
    have hcu := hclean _ (List.mem_cons_self _ _)
    have hstd := hstderr _ (List.mem_cons_self _ _)
    have hrest := ih (fun c hc => hclean c (List.mem_cons_of_mem _ hc))
      (fun c hc => hstderr c (List.mem_cons_of_mem _ hc))
    by_cases hlen : (dirs.filter (fun p => !(is_remote_folder_empty obs p))).length > N
    · have hne : dirs.filter (fun p => !(is_remote_folder_empty obs p)) ≠ [] := by
        intro h0
        rw [h0] at hlen
        simp at hlen
      have hall : ∀ f ∈ dirs.filter (fun p => !(is_remote_folder_empty obs p)),
          (obs.oldest f).isSome = true ∧ entryClean f (obs.oldest f) = true := by
        intro f hf
        have hmem := List.mem_of_mem_filter hf
        have hfp := (List.mem_filter.mp hf).2
        have h2 := hcu f hmem
        exact ⟨h2.1 (by simpa using hfp), h2.2⟩
      have hsort := sort_remote_folders_ok obs _ hne hstd hall
      simp only [get_backup_dir_list_to_cleanup, claimedCleanup]
      rw [if_pos hlen, if_neg (by omega)]
      rw [hsort, hrest]
      rfl
    · have hle : (dirs.filter (fun p => !(is_remote_folder_empty obs p))).length ≤ N := by
        omega
      simp only [get_backup_dir_list_to_cleanup, claimedCleanup]
      rw [if_neg hlen, if_pos hle, hrest]
      simp

/-- C4 (witness): two non-empty backups and one empty one with retention 1 —
the empty backup is ignored and the single oldest non-empty backup is
queued. -/
theorem C4_retention_selection_witness :
    get_backup_dir_list_to_cleanup sampleObs sampleCustomers 1 =
      .ok (claimedCleanup sampleObs (tsOfOldest sampleObs) sampleCustomers 1) :=
  C4_retention_selection sampleObs sampleCustomers 1 (by decide) (by decide)
